import Mathlib

/-!
Verification development for a custom decision-tree learner
(`utils/decision_tree.py`).  The Python class `DecisionTree` is shallowly
embedded below: DataFrames become lists of (row, label) pairs, the
floating-point `math.log2` becomes an abstract parameter `lg : ℚ → ℚ`
(the theorems that need a property of the real log2 take it as an explicit
hypothesis such as `lg 1 = 0`), and the recursion of `_generate_node`
is made total with a fuel parameter (the Python code can recurse forever
for adversarial configurations, e.g. a negative `min_impurity_decrease`).
The shared mutable `special_cases` dict is threaded through the recursion
in state-passing style, which reproduces Python's pass-by-reference
mutation order across sibling subtrees.
-/

/-- A cell of the table: a categorical symbol or a numerical scalar. -/
inductive Value where
  | num (q : ℚ)
  | str (s : String)
deriving DecidableEq, Repr

/-- Numerical access to a cell.  Numerical feature columns hold `Value.num`;
on a `Value.str` the Python code would raise inside pandas, we return 0. -/
def Value.toNum : Value → ℚ
  | Value.num q => q
  | Value.str _ => 0

/-- A row of the DataFrame `X`: feature name to cell value. -/
abbrev Row := String → Value

/-- The row-aligned pair of `X` and `Y` (class labels are `ℕ`, which is
equality-comparable and totally ordered as the code requires). -/
abbrev Dataset := List (Row × ℕ)

/-- An element of `available_feature_names`.  Normally a feature name; the
`.group` constructor models the Python bug where a *list* of feature names
is appended as one element (line `available_feature_names.append(...)`). -/
inductive EligEntry where
  | name (f : String)
  | group (l : List String)
deriving DecidableEq, Repr

/-- Python truthiness of `best_feature` (`if best_feature:`): a non-empty
string / non-empty list. -/
def EligEntry.truthy : EligEntry → Bool
  | EligEntry.name f => f ≠ ""
  | EligEntry.group l => l ≠ []

/-- A value of the `special_cases` dict: a single dependent feature name or
a list of them (`isinstance(value, str)` vs `isinstance(value, list)`). -/
inductive DepVal where
  | one (s : String)
  | many (l : List String)
deriving DecidableEq, Repr

/-- The `special_cases` dict: an insertion-ordered association list with
distinct keys. -/
abbrev SC := List (String × DepVal)

/-- What `available_feature_names.append(special_cases[best_feature])`
actually appends: the raw value, so a list value arrives as one element. -/
def DepVal.toEntry : DepVal → EligEntry
  | DepVal.one s => EligEntry.name s
  | DepVal.many l => EligEntry.group l

/-- All dependent feature names of the registry, in iteration order. -/
def DepVal.deps : DepVal → List String
  | DepVal.one s => [s]
  | DepVal.many l => l

/-- Concatenated dependents of all entries, in dict order. -/
def scDeps (sc : SC) : List String := (sc.map (fun p => p.2.deps)).flatten

/-- `special_cases[k]` (first matching key; keys are unique in a dict). -/
def scLookup (sc : SC) (k : String) : Option DepVal :=
  match sc with
  | [] => Option.none
  | p :: r => if p.1 = k then Option.some p.2 else scLookup r k

/-- `special_cases.pop(k)`: removes the (unique) binding of `k`. -/
def scErase (sc : SC) (k : String) : SC :=
  match sc with
  | [] => []
  | p :: r => if p.1 = k then r else p :: scErase r k

/-- Python's `list.remove`: delete the first occurrence.  (Python raises
`ValueError` when the element is absent; this embedding is a no-op then,
which only matters for inputs on which `fit` crashes before building.) -/
def eraseFirst {α : Type} [DecidableEq α] : List α → α → List α
  | [], _ => []
  | x :: r, a => if x = a then r else x :: eraseFirst r a

/-- The value of the incoming edge (`feature_value`): `root` is Python's
`None`, `val v` a categorical value, `less t` / `geq t` the strings
`f'< {t}'` / `f'>= {t}'`. -/
inductive EdgeVal where
  | root
  | val (v : Value)
  | less (t : ℕ)
  | geq (t : ℕ)
deriving DecidableEq, Repr

/-- The dynamic type of a gain value: a float (categorical gain or the
initial `min_impurity_decrease`), a `(gain, threshold)` tuple (numerical),
or Python's `None` (feature in neither name list). -/
inductive GainV where
  | scalar (g : ℚ)
  | pair (g : ℚ) (t : Option ℕ)
  | na
deriving DecidableEq, Repr

/-- The scalar score of a gain value (`best_gain` or `best_gain[0]`). -/
def GainV.score : GainV → ℚ
  | GainV.scalar g => g
  | GainV.pair g _ => g
  | GainV.na => 0

/-- A node of the fitted tree (`class Node`). -/
inductive Node where
  | mk (split_feature : Option EligEntry) (feature_value : EdgeVal)
       (samples : ℕ) (distribution : List ℕ) (label : Option ℕ)
       (childs : List Node)

def Node.split_feature : Node → Option EligEntry
  | Node.mk s _ _ _ _ _ => s

def Node.feature_value : Node → EdgeVal
  | Node.mk _ v _ _ _ _ => v

def Node.samples : Node → ℕ
  | Node.mk _ _ s _ _ _ => s

def Node.distribution : Node → List ℕ
  | Node.mk _ _ _ d _ _ => d

def Node.label : Node → Option ℕ
  | Node.mk _ _ _ _ l _ => l

def Node.childs : Node → List Node
  | Node.mk _ _ _ _ _ c => c

/-- Occurrence of a node inside a tree (reflexive-transitive closure of the
child relation). -/
inductive InTree : Node → Node → Prop where
  | refl (t : Node) : InTree t t
  | child {n c t : Node} (hc : c ∈ t.childs) (h : InTree n c) : InTree n t

/-- Constructor configuration of `DecisionTree.__init__`. -/
structure Cfg where
  min_samples_split : ℕ
  min_samples_leaf : ℕ
  min_impurity_decrease : ℚ

/-- The default configuration (`min_samples_split=2, min_samples_leaf=1,
min_impurity_decrease=0.05`). -/
def defaultCfg : Cfg := ⟨2, 1, 1 / 20⟩

/-- Per-fit global data: the log function, the sorted class list and the
two feature-name partitions. -/
structure Globals where
  lg : ℚ → ℚ
  class_names : List ℕ
  cats : List String
  nums : List String

/-- `DecisionTree._categorical_feature_entropy`: iterate the distinct
observed values of the feature; every zero-count term is guarded. -/
def categoricalFeatureEntropy (lg : ℚ → ℚ) (xs : List Row) (f : String) : ℚ :=
  let n : ℚ := (xs.length : ℚ)
  ((xs.map (fun r => r f)).dedup).foldl
    (fun e v =>
      let m : ℚ := ((xs.filter (fun r => decide (r f = v))).length : ℚ)
      if m ≠ 0 then e - m / n * lg (m / n) else e) 0

/-- `DecisionTree._numerical_feature_entropy`: binary split of the column at
`threshold`, with explicit guards for the zero-count branches. -/
def numericalFeatureEntropy (lg : ℚ → ℚ) (xs : List Row) (f : String) (t : ℕ) : ℚ :=
  let n : ℚ := (xs.length : ℚ)
  let less : ℚ := ((xs.filter (fun r => decide ((r f).toNum < (t : ℚ)))).length : ℚ)
  let more : ℚ := ((xs.filter (fun r => decide ((t : ℚ) ≤ (r f).toNum))).length : ℚ)
  if less = 0 ∧ more = 0 then 0
  else if less = 0 then -(more / n) * lg (more / n)
  else if more = 0 then -(less / n) * lg (less / n)
  else -(less / n) * lg (less / n) - (more / n) * lg (more / n)

/-- `X[feature_name].max()`, defaulted to 0 for columns without positive
values; `int(...)` of the true maximum and of this default floor to the
same `ℕ`, so the threshold range below is unchanged.  (On an empty subset
pandas returns NaN and `range(int(nan))` raises; that call is unreachable
for the inputs on which the Python build terminates normally.) -/
def maxColumn (xs : List Row) (f : String) : ℚ :=
  (xs.map (fun r => (r f).toNum)).foldl max 0

/-- Number of integer thresholds examined: `range(int(X[f].max()))`. -/
def numThresholdCount (xs : List Row) (f : String) : ℕ :=
  Int.toNat ⌊maxColumn xs f⌋

/-- The class-conditioned gain of one threshold (loop body of
`_numerical_information_gain`). -/
def numGainAt (lg : ℚ → ℚ) (cls : List ℕ) (data : Dataset) (f : String) (t : ℕ) : ℚ :=
  let xs := data.map Prod.fst
  let a := numericalFeatureEntropy lg xs f t
  let b := cls.foldl (fun acc c =>
    acc + (((data.filter (fun p => decide (p.2 = c))).length : ℚ) / ((data.length : ℕ) : ℚ)) *
      numericalFeatureEntropy lg ((data.filter (fun p => decide (p.2 = c))).map Prod.fst) f t) 0
  a - b

/-- The threshold-maximising fold of `_numerical_information_gain`:
`best_gain` starts at 0 (so the dead `is None` test never fires) and only a
strictly larger gain replaces it. -/
def bestThreshold (g : ℕ → ℚ) (ts : List ℕ) : ℚ × Option ℕ :=
  ts.foldl (fun best t => if best.1 < g t then (g t, Option.some t) else best)
    (0, Option.none)

/-- `DecisionTree._numerical_information_gain`. -/
def numericalInformationGain (lg : ℚ → ℚ) (cls : List ℕ) (data : Dataset) (f : String) :
    ℚ × Option ℕ :=
  bestThreshold (numGainAt lg cls data f)
    (List.range (numThresholdCount (data.map Prod.fst) f))

/-- `DecisionTree._categorical_information_gain`:
`H(X, F) - Σ_c (|Y = c| / |X|) · H(X[Y = c], F)`. -/
def categoricalInformationGain (lg : ℚ → ℚ) (cls : List ℕ) (data : Dataset) (f : String) : ℚ :=
  let a := categoricalFeatureEntropy lg (data.map Prod.fst) f
  let b := cls.foldl (fun acc c =>
    acc + (((data.filter (fun p => decide (p.2 = c))).length : ℚ) / ((data.length : ℕ) : ℚ)) *
      categoricalFeatureEntropy lg ((data.filter (fun p => decide (p.2 = c))).map Prod.fst) f) 0
  a - b

/-- `DecisionTree._information_gain`: dispatch on the feature-name lists;
a name in neither list yields Python's `None` (`GainV.na`).  A `.group`
entry (the appended list, see `DepVal.toEntry`) is in neither list as well;
on such an entry the real code already raises in the `isnull()` debug check,
before this dispatch. -/
def informationGain (lg : ℚ → ℚ) (cls : List ℕ) (cats nums : List String)
    (data : Dataset) : EligEntry → GainV
  | EligEntry.group _ => GainV.na
  | EligEntry.name f =>
    if f ∈ cats then GainV.scalar (categoricalInformationGain lg cls data f)
    else if f ∈ nums then
      GainV.pair (numericalInformationGain lg cls data f).1
        (numericalInformationGain lg cls data f).2
    else GainV.na

/-- One iteration of the best-feature loop of `_generate_node`: the four
`isinstance` branches, each comparing the scalar component strictly. -/
def gainStep (lg : ℚ → ℚ) (cls : List ℕ) (cats nums : List String) (data : Dataset)
    (best : GainV × Option EligEntry) (e : EligEntry) : GainV × Option EligEntry :=
  let current := informationGain lg cls cats nums data e
  match best.1, current with
  | GainV.scalar b, GainV.scalar c =>
      if b < c then (current, Option.some e) else best
  | GainV.pair b _, GainV.scalar c =>
      if b < c then (current, Option.some e) else best
  | GainV.scalar b, GainV.pair c _ =>
      if b < c then (current, Option.some e) else best
  | GainV.pair b _, GainV.pair c _ =>
      if b < c then (current, Option.some e) else best
  | _, _ => best

/-- The best-feature selection loop: `best_gain` starts at the configured
`min_impurity_decrease` with `best_feature = None`. -/
def selectBest (lg : ℚ → ℚ) (cls : List ℕ) (cats nums : List String)
    (minImp : ℚ) (data : Dataset) (feats : List EligEntry) : GainV × Option EligEntry :=
  feats.foldl (gainStep lg cls cats nums data)
    (GainV.scalar minImp, Option.none)

/-- `DecisionTree._categorical_split`: one branch per distinct observed
value.  (Python iterates a `set`, whose order is unspecified; any fixed
enumeration of the distinct values is a faithful embedding.) -/
def categoricalSplit (data : Dataset) (f : String) : List (Dataset × EdgeVal) :=
  ((data.map (fun p => p.1 f)).dedup).map (fun v =>
    (data.filter (fun p => decide (p.1 f = v)), EdgeVal.val v))

/-- `DecisionTree._numerical_split`: the `< t` branch then the `>= t`
branch. -/
def numericalSplit (data : Dataset) (f : String) (t : ℕ) : List (Dataset × EdgeVal) :=
  [ (data.filter (fun p => decide ((p.1 f).toNum < (t : ℚ))), EdgeVal.less t),
    (data.filter (fun p => decide ((t : ℚ) ≤ (p.1 f).toNum)), EdgeVal.geq t) ]

/-- `DecisionTree._split`: dispatch; a numerical feature uses
`threshold[1]` of the winning `(gain, threshold)` tuple.  The fallbacks
(threshold `None`/scalar, feature in neither list) correspond to states in
which the Python code raises; they are unreachable from the selection loop
under a non-negative `min_impurity_decrease`. -/
def splitData (cats nums : List String) (data : Dataset) (e : EligEntry) (g : GainV) :
    List (Dataset × EdgeVal) :=
  match e with
  | EligEntry.name f =>
    if f ∈ cats then categoricalSplit data f
    else if f ∈ nums then
      match g with
      | GainV.pair _ (Option.some t) => numericalSplit data f t
      | _ => numericalSplit data f 0
    else []
  | EligEntry.group _ => []

/-- The `samples`/`distribution`/`label` loop of `_generate_node`:
`label` tracks the first class attaining the running maximum
(`max_samples_per_class` starts at -1). -/
def distributionLabel (cls : List ℕ) (data : Dataset) : List ℕ × Option ℕ :=
  let r := cls.foldl
    (fun (acc : List ℕ × Option ℕ × ℤ) c =>
      let spc : ℕ := (data.filter (fun p => decide (p.2 = c))).length
      (acc.1 ++ [spc],
        if acc.2.2 < (spc : ℤ) then (Option.some c, (spc : ℤ)) else acc.2))
    ([], Option.none, -1)
  (r.1, r.2.1)

/-- Lines 104-112 of `_generate_node`: drop a chosen categorical feature
from the eligible list, then consume the special-case registry — the raw
dict value is appended as one element and the key is popped. -/
def updateAvailable (cats : List String) (e : EligEntry) (afn : List EligEntry)
    (sc : SC) : List EligEntry × SC :=
  let afn₁ :=
    match e with
    | EligEntry.name f => if f ∈ cats then eraseFirst afn (EligEntry.name f) else afn
    | EligEntry.group _ => afn
  if sc.isEmpty then (afn₁, sc)
  else
    match e with
    | EligEntry.name f =>
      match scLookup sc f with
      | Option.some v => (afn₁ ++ [v.toEntry], scErase sc f)
      | Option.none => (afn₁, sc)
    | EligEntry.group _ => (afn₁, sc)

/-- The recursion over the produced partitions: every child call receives
the same updated eligible list, and the registry state is threaded left to
right exactly as Python's in-place mutation of the shared dict. -/
def buildChildren (r : Dataset → EdgeVal → List EligEntry → SC → Node × SC)
    (afn : List EligEntry) : List (Dataset × EdgeVal) → SC → List Node × SC
  | [], sc => ([], sc)
  | p :: rest, sc =>
    let nsc := r p.1 p.2 afn sc
    let csc := buildChildren r afn rest nsc.2
    (nsc.1 :: csc.1, csc.2)

/-- The body of `_generate_node`.  `rec` is the recursive call available to
build children (`none` when the fuel is exhausted). -/
def nodeStep (cfg : Cfg) (G : Globals)
    (rec : Option (Dataset → EdgeVal → List EligEntry → SC → Node × SC))
    (data : Dataset) (fv : EdgeVal) (afn : List EligEntry) (sc : SC) : Node × SC :=
  let best := selectBest G.lg G.class_names G.cats G.nums cfg.min_impurity_decrease data afn
  let dl := distributionLabel G.class_names data
  match best.2 with
  | Option.some e =>
    if EligEntry.truthy e then
      let u := updateAvailable G.cats e afn sc
      if cfg.min_samples_split ≤ data.length then
        match rec with
        | Option.some r =>
          let cs := buildChildren r u.1 (splitData G.cats G.nums data e best.1) u.2
          (Node.mk (Option.some e) fv data.length dl.1 dl.2 cs.1, cs.2)
        | Option.none => (Node.mk (Option.some e) fv data.length dl.1 dl.2 [], u.2)
      else (Node.mk (Option.some e) fv data.length dl.1 dl.2 [], u.2)
    else (Node.mk (Option.some e) fv data.length dl.1 dl.2 [], sc)
  | Option.none => (Node.mk Option.none fv data.length dl.1 dl.2 [], sc)

/-- `DecisionTree._generate_node`, with fuel making the recursion total. -/
def generateNode (cfg : Cfg) (G : Globals) :
    ℕ → Dataset → EdgeVal → List EligEntry → SC → Node × SC
  | 0 => nodeStep cfg G Option.none
  | fuel + 1 => nodeStep cfg G (Option.some (generateNode cfg G fuel))

/-- `sorted(list(set(Y.tolist())))`. -/
def sortedClasses (data : Dataset) : List ℕ :=
  List.insertionSort (· ≤ ·) ((data.map Prod.snd).dedup)

/-- The dependent-removal loop of `fit`: sequentially `remove` every
dependent feature name (string values directly, list values element-wise),
in dict order — i.e. a fold of `eraseFirst` over `scDeps`. -/
def initialAvailable (cols : List String) (sc : SC) : List EligEntry :=
  (scDeps sc).foldl (fun a s => eraseFirst a (EligEntry.name s))
    (cols.map EligEntry.name)

/-- The result of `fit`: the recorded metadata, the tree, and the state the
caller's `special_cases` dict object is left in when `fit` returns. -/
structure FitResult where
  feature_names : List String
  class_names : List ℕ
  tree : Node
  special_cases_after : SC

/-- `DecisionTree.fit`: record metadata, build the initial eligible list,
and hand the registry itself (not a copy) to `_generate_node`. -/
def fit (cfg : Cfg) (lg : ℚ → ℚ) (fuel : ℕ) (cols : List String)
    (cats nums : List String) (data : Dataset) (sc : SC) : FitResult :=
  let cls := sortedClasses data
  let r := generateNode cfg ⟨lg, cls, cats, nums⟩ fuel data EdgeVal.root
    (initialAvailable cols sc) sc
  ⟨cols, cls, r.1, r.2⟩

/-! ### Generic helper lemmas -/

lemma foldl_add_eq_sum {α : Type} (F : α → ℚ) :
    ∀ (l : List α) (a : ℚ), l.foldl (fun acc x => acc + F x) a = a + (l.map F).sum := by
  intro l
  induction l with
  | nil => intro a; simp
  | cons x r ih => intro a; simp [ih, add_assoc]

lemma foldl_congr_of_mem {α β : Type} (f g : β → α → β) :
    ∀ (l : List α) (a : β), (∀ b, ∀ x ∈ l, f b x = g b x) → l.foldl f a = l.foldl g a := by
  intro l
  induction l with
  | nil => intro a _; rfl
  | cons x r ih =>
    intro a h
    simp only [List.foldl_cons]
    rw [h a x (by simp)]
    exact ih _ (fun b y hy => h b y (by simp [hy]))

lemma length_filter_add_length_filter_not {α : Type} (p : α → Bool) :
    ∀ l : List α, (l.filter p).length + (l.filter (fun x => !(p x))).length = l.length := by
  intro l
  induction l with
  | nil => rfl
  | cons x r ih =>
    by_cases hx : p x <;> simp [List.filter_cons, hx, ← ih] <;> omega

lemma eraseFirst_subset {α : Type} [DecidableEq α] :
    ∀ (l : List α) (a x : α), x ∈ eraseFirst l a → x ∈ l := by
  intro l
  induction l with
  | nil => intro a x h; simp [eraseFirst] at h
  | cons y r ih =>
    intro a x h
    simp only [eraseFirst] at h
    by_cases hy : y = a
    · simp [hy] at h; simp [h]
    · simp [hy] at h
      rcases h with h | h
      · simp [h]
      · simp [ih a x h]

lemma scErase_sublist (sc : SC) (k : String) : List.Sublist (scErase sc k) sc := by
  induction sc with
  | nil => simp [scErase]
  | cons p r ih =>
    simp only [scErase]
    by_cases hp : p.1 = k
    · simp [hp]
    · simp only [hp, if_false]
      exact List.Sublist.cons₂ p ih

lemma scDeps_sublist : ∀ {sc' sc : SC}, List.Sublist sc' sc →
    List.Sublist (scDeps sc') (scDeps sc) := by
  intro sc' sc h
  induction h with
  | slnil => simp [scDeps]
  | cons p _ ih =>
    refine ih.trans ?_
    simp only [scDeps, List.map_cons, List.flatten_cons]
    exact List.sublist_append_right _ _
  | cons₂ p _ ih =>
    simp only [scDeps, List.map_cons, List.flatten_cons]
    exact List.Sublist.append_left ih _

lemma mem_scDeps_of_lookup {sc : SC} {k : String} {v : DepVal}
    (h : scLookup sc k = Option.some v) : ∀ s ∈ v.deps, s ∈ scDeps sc := by
  induction sc with
  | nil => simp [scLookup] at h
  | cons p r ih =>
    intro s hs
    simp only [scLookup] at h
    by_cases hp : p.1 = k
    · simp only [hp, if_true, Option.some.injEq] at h
      subst h
      simp [scDeps, List.mem_append]
      exact Or.inl hs
    · simp only [hp, if_false] at h
      simp [scDeps, List.mem_append]
      exact Or.inr (by simpa [scDeps] using ih h s hs)

/-! ### Lemmas about the threshold-maximising fold -/

lemma bestThreshold_fst_le (g : ℕ → ℚ) :
    ∀ (ts : List ℕ) (acc : ℚ × Option ℕ),
      acc.1 ≤ (ts.foldl (fun best t => if best.1 < g t then (g t, Option.some t) else best) acc).1 := by
  intro ts
  induction ts with
  | nil => intro acc; simp
  | cons t r ih =>
    intro acc
    simp only [List.foldl_cons]
    by_cases h : acc.1 < g t
    · simp only [h, if_true]
      exact le_of_lt (lt_of_lt_of_le h (ih (g t, Option.some t)))
    · simp only [h, if_false]
      exact ih acc

lemma bestThreshold_ge (g : ℕ → ℚ) :
    ∀ (ts : List ℕ) (acc : ℚ × Option ℕ) (t : ℕ), t ∈ ts →
      g t ≤ (ts.foldl (fun best t => if best.1 < g t then (g t, Option.some t) else best) acc).1 := by
  intro ts
  induction ts with
  | nil => intro acc t h; simp at h
  | cons x r ih =>
    intro acc t ht
    rcases List.mem_cons.mp ht with h | h
    · subst h
      simp only [List.foldl_cons]
      by_cases hx : acc.1 < g t
      · simp only [hx, if_true]
        simpa using bestThreshold_fst_le g r (g t, Option.some t)
      · simp only [hx, if_false]
        exact le_trans (not_lt.mp hx) (bestThreshold_fst_le g r acc)
    · simp only [List.foldl_cons]
      by_cases hx : acc.1 < g x <;> simp only [hx, if_true, if_false] <;> exact ih _ t h

lemma bestThreshold_cases (g : ℕ → ℚ) :
    ∀ (ts : List ℕ) (acc : ℚ × Option ℕ),
      (ts.foldl (fun best t => if best.1 < g t then (g t, Option.some t) else best) acc) = acc ∨
      ∃ t ∈ ts,
        (ts.foldl (fun best t => if best.1 < g t then (g t, Option.some t) else best) acc)
          = (g t, Option.some t) := by
  intro ts
  induction ts with
  | nil => intro acc; simp
  | cons x r ih =>
    intro acc
    simp only [List.foldl_cons]
    by_cases hx : acc.1 < g x
    · simp only [hx, if_true]
      rcases ih (g x, Option.some x) with h | ⟨t, ht, h⟩
      · exact Or.inr ⟨x, by simp, h⟩
      · exact Or.inr ⟨t, by simp [ht], h⟩
    · simp only [hx, if_false]
      rcases ih acc with h | ⟨t, ht, h⟩
      · exact Or.inl h
      · exact Or.inr ⟨t, by simp [ht], h⟩

lemma numericalInformationGain_nonneg (lg : ℚ → ℚ) (cls : List ℕ) (data : Dataset)
    (f : String) : 0 ≤ (numericalInformationGain lg cls data f).1 := by
  simpa [numericalInformationGain, bestThreshold] using
    bestThreshold_fst_le (numGainAt lg cls data f)
      (List.range (numThresholdCount (data.map Prod.fst) f)) (0, Option.none)

lemma numericalInformationGain_cases (lg : ℚ → ℚ) (cls : List ℕ) (data : Dataset) (f : String) :
    numericalInformationGain lg cls data f = (0, Option.none) ∨
    ∃ t ∈ List.range (numThresholdCount (data.map Prod.fst) f),
      numericalInformationGain lg cls data f = (numGainAt lg cls data f t, Option.some t) := by
  simpa [numericalInformationGain, bestThreshold] using
    bestThreshold_cases (numGainAt lg cls data f)
      (List.range (numThresholdCount (data.map Prod.fst) f)) (0, Option.none)

/-! ### Lemmas about the best-feature selection loop -/

lemma gainStep_cases (lg : ℚ → ℚ) (cls : List ℕ) (cats nums : List String) (data : Dataset)
    (acc : GainV × Option EligEntry) (e : EligEntry) :
    gainStep lg cls cats nums data acc e = acc ∨
    (gainStep lg cls cats nums data acc e
        = (informationGain lg cls cats nums data e, Option.some e) ∧
      acc.1.score < (informationGain lg cls cats nums data e).score ∧
      informationGain lg cls cats nums data e ≠ GainV.na) := by
  cases hb : acc.1 with
  | scalar b =>
    cases hI : informationGain lg cls cats nums data e with
    | scalar c =>
      by_cases hlt : b < c
      · exact Or.inr ⟨by simp [gainStep, hb, hI, hlt], by simp [hb, hI, GainV.score, hlt], by simp [hI]⟩
      · exact Or.inl (by simp [gainStep, hb, hI, hlt])
    | pair c t =>
      by_cases hlt : b < c
      · exact Or.inr ⟨by simp [gainStep, hb, hI, hlt], by simp [hb, hI, GainV.score, hlt], by simp [hI]⟩
      · exact Or.inl (by simp [gainStep, hb, hI, hlt])
    | na => exact Or.inl (by simp [gainStep, hb, hI])
  | pair b t =>
    cases hI : informationGain lg cls cats nums data e with
    | scalar c =>
      by_cases hlt : b < c
      · exact Or.inr ⟨by simp [gainStep, hb, hI, hlt], by simp [hb, hI, GainV.score, hlt], by simp [hI]⟩
      · exact Or.inl (by simp [gainStep, hb, hI, hlt])
    | pair c t' =>
      by_cases hlt : b < c
      · exact Or.inr ⟨by simp [gainStep, hb, hI, hlt], by simp [hb, hI, GainV.score, hlt], by simp [hI]⟩
      · exact Or.inl (by simp [gainStep, hb, hI, hlt])
    | na => exact Or.inl (by simp [gainStep, hb, hI])
  | na =>
    cases hI : informationGain lg cls cats nums data e with
    | scalar c => exact Or.inl (by simp [gainStep, hb, hI])
    | pair c t => exact Or.inl (by simp [gainStep, hb, hI])
    | na => exact Or.inl (by simp [gainStep, hb, hI])

lemma selectBest_aux (lg : ℚ → ℚ) (cls : List ℕ) (cats nums : List String) (data : Dataset) :
    ∀ (feats : List EligEntry) (acc : GainV × Option EligEntry),
      acc.1.score ≤ (List.foldl (gainStep lg cls cats nums data) acc feats).1.score ∧
      (∀ e, (List.foldl (gainStep lg cls cats nums data) acc feats).2 = Option.some e →
        (acc.2 = Option.some e ∧
          (List.foldl (gainStep lg cls cats nums data) acc feats).1 = acc.1) ∨
        (e ∈ feats ∧
          (List.foldl (gainStep lg cls cats nums data) acc feats).1
            = informationGain lg cls cats nums data e ∧
          acc.1.score < (List.foldl (gainStep lg cls cats nums data) acc feats).1.score ∧
          (List.foldl (gainStep lg cls cats nums data) acc feats).1 ≠ GainV.na)) := by
  intro feats
  induction feats with
  | nil => intro acc; refine ⟨le_refl _, ?_⟩; intro e he; exact Or.inl ⟨he, rfl⟩
  | cons x r ih =>
    intro acc
    simp only [List.foldl_cons]
    rcases gainStep_cases lg cls cats nums data acc x with hstep | ⟨hstep, hsc, hna⟩
    · rw [hstep]
      refine ⟨(ih acc).1, ?_⟩
      intro e he
      rcases (ih acc).2 e he with h | ⟨h1, h2, h3, h4⟩
      · exact Or.inl h
      · exact Or.inr ⟨by simp [h1], h2, h3, h4⟩
    · rw [hstep]
      have hle := (ih (informationGain lg cls cats nums data x, Option.some x)).1
      refine ⟨le_of_lt (lt_of_lt_of_le hsc hle), ?_⟩
      intro e he
      rcases (ih (informationGain lg cls cats nums data x, Option.some x)).2 e he with
        ⟨h1, h2⟩ | ⟨h1, h2, h3, h4⟩
      · simp only [Option.some.injEq] at h1
        subst h1
        refine Or.inr ⟨by simp, by simpa using h2, ?_, by simpa [h2] using hna⟩
        rw [h2]
        exact hsc
      · exact Or.inr ⟨by simp [h1], h2, lt_trans (by simpa using hsc) h3, h4⟩

lemma selectBest_spec (lg : ℚ → ℚ) (cls : List ℕ) (cats nums : List String)
    (minImp : ℚ) (data : Dataset) (feats : List EligEntry) (e : EligEntry)
    (h : (selectBest lg cls cats nums minImp data feats).2 = Option.some e) :
    e ∈ feats ∧
    (selectBest lg cls cats nums minImp data feats).1 = informationGain lg cls cats nums data e ∧
    minImp < (selectBest lg cls cats nums minImp data feats).1.score ∧
    (selectBest lg cls cats nums minImp data feats).1 ≠ GainV.na := by
  have := (selectBest_aux lg cls cats nums data feats (GainV.scalar minImp, Option.none)).2 e
  rcases this (by simpa [selectBest] using h) with ⟨h1, _⟩ | ⟨h1, h2, h3, h4⟩
  · simp at h1
  · exact ⟨h1, by simpa [selectBest] using h2, by simpa [selectBest, GainV.score] using h3,
      by simpa [selectBest] using h4⟩

/-! ### Lemmas about distribution and samples -/

lemma distributionLabel_fst_aux (cls : List ℕ) (data : Dataset) :
    ∀ (l : List ℕ) (acc : List ℕ × Option ℕ × ℤ),
      (l.foldl
        (fun (acc : List ℕ × Option ℕ × ℤ) c =>
          let spc : ℕ := (data.filter (fun p => decide (p.2 = c))).length
          (acc.1 ++ [spc],
            if acc.2.2 < (spc : ℤ) then (Option.some c, (spc : ℤ)) else acc.2)) acc).1
      = acc.1 ++ l.map (fun c => (data.filter (fun p => decide (p.2 = c))).length) := by
  intro l
  induction l with
  | nil => intro acc; simp
  | cons c r ih =>
    intro acc
    simp only [List.foldl_cons, List.map_cons]
    rw [ih]
    simp

lemma distributionLabel_fst (cls : List ℕ) (data : Dataset) :
    (distributionLabel cls data).1
      = cls.map (fun c => (data.filter (fun p => decide (p.2 = c))).length) := by
  simpa [distributionLabel] using
    distributionLabel_fst_aux cls data cls ([], Option.none, -1)

lemma sum_ite_count (x : ℕ) :
    ∀ cls : List ℕ, (cls.map (fun c => if x = c then 1 else 0)).sum = cls.count x := by
  intro cls
  induction cls with
  | nil => simp
  | cons c r ih =>
    by_cases h : x = c
    · subst h
      simp [List.count_cons, ih, Nat.add_comm]
    · simp [List.count_cons, h, ih, Ne.symm h]

lemma sum_counts (cls : List ℕ) :
    ∀ data : Dataset, cls.Nodup → (∀ p ∈ data, p.2 ∈ cls) →
      (cls.map (fun c => (data.filter (fun p => decide (p.2 = c))).length)).sum
        = data.length := by
  intro data
  induction data with
  | nil => intro _ _; simp
  | cons p d ih =>
    intro hnd hcov
    have hmem : p.2 ∈ cls := hcov p (by simp)
    have step : ∀ c : ℕ,
        ((p :: d).filter (fun q => decide (q.2 = c))).length
          = (if p.2 = c then 1 else 0) + (d.filter (fun q => decide (q.2 = c))).length := by
      intro c
      by_cases h : p.2 = c <;> simp [List.filter_cons, h] <;> omega
    calc (cls.map (fun c => ((p :: d).filter (fun q => decide (q.2 = c))).length)).sum
        = (cls.map (fun c =>
            (if p.2 = c then 1 else 0) + (d.filter (fun q => decide (q.2 = c))).length)).sum := by
          simp only [step]
      _ = (cls.map (fun c => if p.2 = c then 1 else 0)).sum
            + (cls.map (fun c => (d.filter (fun q => decide (q.2 = c))).length)).sum := by
          induction cls with
          | nil => simp
          | cons c r ihc => simp [ihc]; omega
      _ = 1 + d.length := by
          rw [sum_ite_count, ih hnd (fun q hq => hcov q (by simp [hq])),
            List.count_eq_one_of_mem hnd hmem]
      _ = (p :: d).length := by simp [Nat.add_comm]

/-! ### Structural lemmas about the node builder -/

lemma updateAvailable_sc_sublist (cats : List String) (e : EligEntry)
    (afn : List EligEntry) (sc : SC) :
    List.Sublist (updateAvailable cats e afn sc).2 sc := by
  simp only [updateAvailable]
  by_cases hs : sc.isEmpty
  · simp [hs]
  · simp only [hs, if_false]
    cases e with
    | name f =>
      cases hl : scLookup sc f with
      | none => simp [hl]
      | some v => simpa [hl] using scErase_sublist sc f
    | group l => simp

lemma nodeStep_samples (cfg : Cfg) (G : Globals)
    (rec : Option (Dataset → EdgeVal → List EligEntry → SC → Node × SC))
    (data : Dataset) (fv : EdgeVal) (afn : List EligEntry) (sc : SC) :
    ((nodeStep cfg G rec data fv afn sc).1).samples = data.length := by
  simp only [nodeStep]
  cases ho : (selectBest G.lg G.class_names G.cats G.nums cfg.min_impurity_decrease data afn).2 with
  | none => simp [Node.samples]
  | some e =>
    cases ht : EligEntry.truthy e with
    | false => simp [ht, Node.samples]
    | true =>
      by_cases hms : cfg.min_samples_split ≤ data.length
      · cases rec with
        | none => simp [ht, hms, Node.samples]
        | some r => simp [ht, hms, Node.samples]
      · simp [ht, hms, Node.samples]

lemma nodeStep_split_feature (cfg : Cfg) (G : Globals)
    (rec : Option (Dataset → EdgeVal → List EligEntry → SC → Node × SC))
    (data : Dataset) (fv : EdgeVal) (afn : List EligEntry) (sc : SC) :
    ((nodeStep cfg G rec data fv afn sc).1).split_feature
      = (selectBest G.lg G.class_names G.cats G.nums cfg.min_impurity_decrease data afn).2 := by
  simp only [nodeStep]
  cases ho : (selectBest G.lg G.class_names G.cats G.nums cfg.min_impurity_decrease data afn).2 with
  | none => simp [Node.split_feature]
  | some e =>
    cases ht : EligEntry.truthy e with
    | false => simp [ht, Node.split_feature]
    | true =>
      by_cases hms : cfg.min_samples_split ≤ data.length
      · cases rec with
        | none => simp [ht, hms, Node.split_feature]
        | some r => simp [ht, hms, Node.split_feature]
      · simp [ht, hms, Node.split_feature]

lemma nodeStep_distribution (cfg : Cfg) (G : Globals)
    (rec : Option (Dataset → EdgeVal → List EligEntry → SC → Node × SC))
    (data : Dataset) (fv : EdgeVal) (afn : List EligEntry) (sc : SC) :
    ((nodeStep cfg G rec data fv afn sc).1).distribution
      = (distributionLabel G.class_names data).1 := by
  simp only [nodeStep]
  cases ho : (selectBest G.lg G.class_names G.cats G.nums cfg.min_impurity_decrease data afn).2 with
  | none => simp [Node.distribution]
  | some e =>
    cases ht : EligEntry.truthy e with
    | false => simp [ht, Node.distribution]
    | true =>
      by_cases hms : cfg.min_samples_split ≤ data.length
      · cases rec with
        | none => simp [ht, hms, Node.distribution]
        | some r => simp [ht, hms, Node.distribution]
      · simp [ht, hms, Node.distribution]

lemma nodeStep_childs_none (cfg : Cfg) (G : Globals)
    (data : Dataset) (fv : EdgeVal) (afn : List EligEntry) (sc : SC) :
    ((nodeStep cfg G Option.none data fv afn sc).1).childs = [] := by
  simp only [nodeStep]
  cases ho : (selectBest G.lg G.class_names G.cats G.nums cfg.min_impurity_decrease data afn).2 with
  | none => simp [Node.childs]
  | some e =>
    cases ht : EligEntry.truthy e with
    | false => simp [ht, Node.childs]
    | true =>
      by_cases hms : cfg.min_samples_split ≤ data.length
      · simp [ht, hms, Node.childs]
      · simp [ht, hms, Node.childs]

lemma nodeStep_small (cfg : Cfg) (G : Globals)
    (rec : Option (Dataset → EdgeVal → List EligEntry → SC → Node × SC))
    (data : Dataset) (fv : EdgeVal) (afn : List EligEntry) (sc : SC) (e : EligEntry)
    (ho : (selectBest G.lg G.class_names G.cats G.nums cfg.min_impurity_decrease data afn).2
        = Option.some e)
    (hms : data.length < cfg.min_samples_split) :
    ((nodeStep cfg G rec data fv afn sc).1).split_feature = Option.some e ∧
    ((nodeStep cfg G rec data fv afn sc).1).childs = [] := by
  have hms' : ¬ cfg.min_samples_split ≤ data.length := by omega
  simp only [nodeStep, ho]
  cases ht : EligEntry.truthy e with
  | false => simp [ht, Node.childs, Node.split_feature]
  | true => simp [ht, hms', Node.childs, Node.split_feature]

lemma buildChildren_sc_sublist
    (r : Dataset → EdgeVal → List EligEntry → SC → Node × SC) (afn : List EligEntry)
    (hr : ∀ d fv s, List.Sublist (r d fv afn s).2 s) :
    ∀ (parts : List (Dataset × EdgeVal)) (sc : SC),
      List.Sublist (buildChildren r afn parts sc).2 sc := by
  intro parts
  induction parts with
  | nil => intro sc; simp [buildChildren]
  | cons p rest ih =>
    intro sc
    simp only [buildChildren]
    exact (ih (r p.1 p.2 afn sc).2).trans (hr p.1 p.2 sc)

lemma buildChildren_mem
    (r : Dataset → EdgeVal → List EligEntry → SC → Node × SC) (afn : List EligEntry)
    (hr : ∀ d fv s, List.Sublist (r d fv afn s).2 s) :
    ∀ (parts : List (Dataset × EdgeVal)) (sc : SC) (c : Node),
      c ∈ (buildChildren r afn parts sc).1 →
      ∃ p ∈ parts, ∃ sc', List.Sublist sc' sc ∧ c = (r p.1 p.2 afn sc').1 := by
  intro parts
  induction parts with
  | nil => intro sc c hc; simp [buildChildren] at hc
  | cons p rest ih =>
    intro sc c hc
    simp only [buildChildren, List.mem_cons] at hc
    rcases hc with hc | hc
    · exact ⟨p, by simp, sc, List.Sublist.refl sc, hc⟩
    · rcases ih (r p.1 p.2 afn sc).2 c hc with ⟨q, hq, sc', hsub, hcq⟩
      exact ⟨q, by simp [hq], sc', hsub.trans (hr p.1 p.2 sc), hcq⟩

/-! ### Lemmas about the splitter -/

lemma splitData_subset (cats nums : List String) (data : Dataset) (e : EligEntry) (g : GainV) :
    ∀ part ∈ splitData cats nums data e g, ∀ p ∈ part.1, p ∈ data := by
  intro part hpart p hp
  cases e with
  | group l => simp [splitData] at hpart
  | name f =>
    simp only [splitData] at hpart
    by_cases hc : f ∈ cats
    · simp only [hc, if_true, categoricalSplit, List.mem_map] at hpart
      rcases hpart with ⟨v, _, hv⟩
      rw [← hv] at hp
      exact (List.mem_filter.mp hp).1
    · simp only [hc, if_false] at hpart
      by_cases hn : f ∈ nums
      · simp only [hn, if_true] at hpart
        rcases hg : g with g' | ⟨g', t | t⟩ | _ <;> rw [hg] at hpart <;>
          simp only [numericalSplit, List.mem_cons, List.mem_singleton] at hpart <;>
          rcases hpart with h | h | h <;> first
            | (rw [h] at hp; exact (List.mem_filter.mp hp).1)
            | simp at h
      · simp [hn] at hpart

lemma categoricalSplit_nonempty (data : Dataset) (f : String) :
    ∀ part ∈ categoricalSplit data f, part.1 ≠ [] := by
  intro part hpart
  simp only [categoricalSplit, List.mem_map] at hpart
  rcases hpart with ⟨v, hv, hpart⟩
  rw [List.mem_dedup, List.mem_map] at hv
  rcases hv with ⟨p, hp, hpv⟩
  intro hnil
  rw [← hpart] at hnil
  simp only at hnil
  have hmem : p ∈ data.filter (fun p => decide (p.1 f = v)) :=
    List.mem_filter.mpr ⟨hp, by simp [hpv]⟩
  rw [hnil] at hmem
  simp at hmem

/-! ### The class-conditioned gain of a threshold with an empty branch -/

lemma filter_map_fst (data : Dataset) (q : Row → Bool) :
    (data.map Prod.fst).filter q = (data.filter (fun p => q p.1)).map Prod.fst := by
  induction data with
  | nil => rfl
  | cons p d ih => by_cases h : q p.1 <;> simp [List.filter_cons, h, ih]

lemma filter_filter_nil {α : Type} (l : List α) (p q : α → Bool)
    (h : l.filter p = []) : (l.filter q).filter p = [] := by
  rw [List.eq_nil_iff_forall_not_mem]
  intro x hx
  have hxp : x ∈ l.filter p :=
    List.mem_filter.mpr ⟨(List.mem_filter.mp ((List.mem_filter.mp hx).1)).1,
      (List.mem_filter.mp hx).2⟩
  simp [h] at hxp

lemma numEntropy_lengths (xs : List Row) (f : String) (t : ℕ) :
    (xs.filter (fun r => decide ((r f).toNum < (t : ℚ)))).length
      + (xs.filter (fun r => decide ((t : ℚ) ≤ (r f).toNum))).length = xs.length := by
  have hpred : xs.filter (fun r => decide ((t : ℚ) ≤ (r f).toNum))
      = xs.filter (fun r => !(decide ((r f).toNum < (t : ℚ)))) := by
    apply List.filter_congr
    intro r _
    by_cases h : (r f).toNum < (t : ℚ) <;> simp [h, not_lt.mpr, le_of_not_lt]
  rw [hpred]
  exact length_filter_add_length_filter_not _ xs

lemma numericalFeatureEntropy_less_empty (lg : ℚ → ℚ) (xs : List Row) (f : String) (t : ℕ)
    (hxs : xs ≠ []) (hlg : lg 1 = 0)
    (h : xs.filter (fun r => decide ((r f).toNum < (t : ℚ))) = []) :
    numericalFeatureEntropy lg xs f t = 0 := by
  have hlen : xs.length ≠ 0 := by simpa using hxs
  have hmore : (xs.filter (fun r => decide ((t : ℚ) ≤ (r f).toNum))).length = xs.length := by
    have := numEntropy_lengths xs f t
    rw [h] at this
    simpa using this
  have hq : ((xs.length : ℕ) : ℚ) ≠ 0 := by exact_mod_cast hlen
  simp only [numericalFeatureEntropy, h, hmore, List.length_nil, Nat.cast_zero]
  simp [hq, div_self hq, hlg]

lemma numericalFeatureEntropy_more_empty (lg : ℚ → ℚ) (xs : List Row) (f : String) (t : ℕ)
    (hxs : xs ≠ []) (hlg : lg 1 = 0)
    (h : xs.filter (fun r => decide ((t : ℚ) ≤ (r f).toNum)) = []) :
    numericalFeatureEntropy lg xs f t = 0 := by
  have hlen : xs.length ≠ 0 := by simpa using hxs
  have hless : (xs.filter (fun r => decide ((r f).toNum < (t : ℚ)))).length = xs.length := by
    have := numEntropy_lengths xs f t
    rw [h] at this
    simpa using this
  have hq : ((xs.length : ℕ) : ℚ) ≠ 0 := by exact_mod_cast hlen
  have hlessq : ((xs.filter (fun r => decide ((r f).toNum < (t : ℚ)))).length : ℚ) ≠ 0 := by
    rw [hless]; exact hq
  simp only [numericalFeatureEntropy, h, hless, List.length_nil, Nat.cast_zero]
  simp [hq, div_self hq, hlg]

lemma numGainAt_empty_branch (lg : ℚ → ℚ) (cls : List ℕ) (data : Dataset) (f : String)
    (t : ℕ) (hd : data ≠ []) (hlg : lg 1 = 0)
    (h : data.filter (fun p => decide ((p.1 f).toNum < (t : ℚ))) = [] ∨
         data.filter (fun p => decide ((t : ℚ) ≤ (p.1 f).toNum)) = []) :
    numGainAt lg cls data f t = 0 := by
  have hmain : ∀ d : Dataset, d ≠ [] →
      (d.filter (fun p => decide ((p.1 f).toNum < (t : ℚ))) = [] ∨
       d.filter (fun p => decide ((t : ℚ) ≤ (p.1 f).toNum)) = []) →
      numericalFeatureEntropy lg (d.map Prod.fst) f t = 0 := by
    intro d hd' h'
    rcases h' with h' | h'
    · exact numericalFeatureEntropy_less_empty lg (d.map Prod.fst) f t (by simpa using hd') hlg
        (by rw [filter_map_fst, h']; rfl)
    · exact numericalFeatureEntropy_more_empty lg (d.map Prod.fst) f t (by simpa using hd') hlg
        (by rw [filter_map_fst, h']; rfl)
  have ha : numericalFeatureEntropy lg (data.map Prod.fst) f t = 0 := hmain data hd h
  have hb : ∀ c ∈ cls,
      (((data.filter (fun p => decide (p.2 = c))).length : ℚ) / ((data.length : ℕ) : ℚ)) *
        numericalFeatureEntropy lg ((data.filter (fun p => decide (p.2 = c))).map Prod.fst) f t
        = 0 := by
    intro c _
    by_cases hc : data.filter (fun p => decide (p.2 = c)) = []
    · simp [hc, numericalFeatureEntropy]
    · have : numericalFeatureEntropy lg
          ((data.filter (fun p => decide (p.2 = c))).map Prod.fst) f t = 0 := by
        apply hmain _ hc
        rcases h with h' | h'
        · exact Or.inl (filter_filter_nil data _ _ h')
        · exact Or.inr (filter_filter_nil data _ _ h')
      simp [this]
  simp only [numGainAt, ha, foldl_add_eq_sum]
  have : (cls.map (fun c =>
      (((data.filter (fun p => decide (p.2 = c))).length : ℚ) / ((data.length : ℕ) : ℚ)) *
        numericalFeatureEntropy lg ((data.filter (fun p => decide (p.2 = c))).map Prod.fst) f t)).sum
      = 0 := by
    apply List.sum_eq_zero
    intro x hx
    rcases List.mem_map.mp hx with ⟨c, hc, hcx⟩
    rw [← hcx]
    exact hb c hc
  rw [this]
  ring

/-! ### The registry only shrinks, and children come from the splitter -/

lemma nodeStep_sc_sublist (cfg : Cfg) (G : Globals)
    (rec : Option (Dataset → EdgeVal → List EligEntry → SC → Node × SC))
    (data : Dataset) (fv : EdgeVal) (afn : List EligEntry) (sc : SC)
    (hr : ∀ r, rec = Option.some r → ∀ d fv' a s, List.Sublist (r d fv' a s).2 s) :
    List.Sublist (nodeStep cfg G rec data fv afn sc).2 sc := by
  simp only [nodeStep]
  cases ho : (selectBest G.lg G.class_names G.cats G.nums cfg.min_impurity_decrease data afn).2 with
  | none => simp
  | some e =>
    cases ht : EligEntry.truthy e with
    | false => simp [ht]
    | true =>
      by_cases hms : cfg.min_samples_split ≤ data.length
      · cases hrec : rec with
        | none => simpa [ht, hms] using updateAvailable_sc_sublist G.cats e afn sc
        | some r =>
          simp only [ht, hms, if_true]
          exact (buildChildren_sc_sublist r _ (fun d fv' s => hr r hrec d fv' _ s) _ _).trans
            (updateAvailable_sc_sublist G.cats e afn sc)
      · simpa [ht, hms] using updateAvailable_sc_sublist G.cats e afn sc

lemma generateNode_sc_sublist (cfg : Cfg) (G : Globals) :
    ∀ (fuel : ℕ) (data : Dataset) (fv : EdgeVal) (afn : List EligEntry) (sc : SC),
      List.Sublist (generateNode cfg G fuel data fv afn sc).2 sc := by
  intro fuel
  induction fuel with
  | zero =>
    intro data fv afn sc
    exact nodeStep_sc_sublist cfg G Option.none data fv afn sc (by intro r h; simp at h)
  | succ fuel ih =>
    intro data fv afn sc
    refine nodeStep_sc_sublist cfg G _ data fv afn sc ?_
    intro r h d fv' a s
    have hr : r = generateNode cfg G fuel := by
      simpa using h.symm
    rw [hr]
    exact ih d fv' a s

lemma nodeStep_childs_mem (cfg : Cfg) (G : Globals)
    (r : Dataset → EdgeVal → List EligEntry → SC → Node × SC)
    (data : Dataset) (fv : EdgeVal) (afn : List EligEntry) (sc : SC) (c : Node)
    (hr : ∀ d fv' a s, List.Sublist (r d fv' a s).2 s)
    (hc : c ∈ ((nodeStep cfg G (Option.some r) data fv afn sc).1).childs) :
    ∃ e, (selectBest G.lg G.class_names G.cats G.nums cfg.min_impurity_decrease data afn).2
        = Option.some e ∧
      EligEntry.truthy e = true ∧ cfg.min_samples_split ≤ data.length ∧
      ∃ p ∈ splitData G.cats G.nums data e
          (selectBest G.lg G.class_names G.cats G.nums cfg.min_impurity_decrease data afn).1,
        ∃ sc', List.Sublist sc' (updateAvailable G.cats e afn sc).2 ∧
          c = (r p.1 p.2 (updateAvailable G.cats e afn sc).1 sc').1 := by
  revert hc
  simp only [nodeStep]
  cases ho : (selectBest G.lg G.class_names G.cats G.nums cfg.min_impurity_decrease data afn).2 with
  | none => intro hc; simp [Node.childs] at hc
  | some e =>
    cases ht : EligEntry.truthy e with
    | false => intro hc; simp [ht, Node.childs] at hc
    | true =>
      by_cases hms : cfg.min_samples_split ≤ data.length
      · simp only [ht, hms, if_true]
        intro hc
        simp only [Node.childs] at hc
        rcases buildChildren_mem r _ (fun d fv' s => hr d fv' _ s) _ _ c hc with
          ⟨p, hp, sc', hsub, hcp⟩
        exact ⟨e, rfl, by simp [ht], by simp [hms], p, hp, sc', hsub, hcp⟩
      · intro hc; simp [ht, hms, Node.childs] at hc

lemma generateNode_zero_childs (cfg : Cfg) (G : Globals)
    (data : Dataset) (fv : EdgeVal) (afn : List EligEntry) (sc : SC) :
    ((generateNode cfg G 0 data fv afn sc).1).childs = [] := by
  simpa [generateNode] using nodeStep_childs_none cfg G data fv afn sc

lemma generateNode_child_mem (cfg : Cfg) (G : Globals) (fuel : ℕ)
    (data : Dataset) (fv : EdgeVal) (afn : List EligEntry) (sc : SC) (c : Node)
    (hc : c ∈ ((generateNode cfg G (fuel + 1) data fv afn sc).1).childs) :
    ∃ e, (selectBest G.lg G.class_names G.cats G.nums cfg.min_impurity_decrease data afn).2
        = Option.some e ∧
      EligEntry.truthy e = true ∧ cfg.min_samples_split ≤ data.length ∧
      ∃ p ∈ splitData G.cats G.nums data e
          (selectBest G.lg G.class_names G.cats G.nums cfg.min_impurity_decrease data afn).1,
        ∃ sc', List.Sublist sc' (updateAvailable G.cats e afn sc).2 ∧
          c = (generateNode cfg G fuel p.1 p.2 (updateAvailable G.cats e afn sc).1 sc').1 := by
  have hc' : c ∈ ((nodeStep cfg G (Option.some (generateNode cfg G fuel)) data fv afn sc).1).childs := by
    simpa [generateNode] using hc
  exact nodeStep_childs_mem cfg G (generateNode cfg G fuel) data fv afn sc c
    (fun d fv' a s => generateNode_sc_sublist cfg G fuel d fv' a s) hc'

lemma InTree_cases {n t : Node} (h : InTree n t) :
    n = t ∨ ∃ c ∈ t.childs, InTree n c := by
  cases h with
  | refl => exact Or.inl rfl
  | child hc h => exact Or.inr ⟨_, hc, h⟩

lemma generateNode_samples (cfg : Cfg) (G : Globals) (fuel : ℕ)
    (data : Dataset) (fv : EdgeVal) (afn : List EligEntry) (sc : SC) :
    ((generateNode cfg G fuel data fv afn sc).1).samples = data.length := by
  cases fuel with
  | zero => simpa [generateNode] using nodeStep_samples cfg G Option.none data fv afn sc
  | succ fuel =>
    simpa [generateNode] using
      nodeStep_samples cfg G (Option.some (generateNode cfg G fuel)) data fv afn sc

lemma generateNode_split_feature (cfg : Cfg) (G : Globals) (fuel : ℕ)
    (data : Dataset) (fv : EdgeVal) (afn : List EligEntry) (sc : SC) :
    ((generateNode cfg G fuel data fv afn sc).1).split_feature
      = (selectBest G.lg G.class_names G.cats G.nums cfg.min_impurity_decrease data afn).2 := by
  cases fuel with
  | zero => simpa [generateNode] using nodeStep_split_feature cfg G Option.none data fv afn sc
  | succ fuel =>
    simpa [generateNode] using
      nodeStep_split_feature cfg G (Option.some (generateNode cfg G fuel)) data fv afn sc

lemma generateNode_distribution (cfg : Cfg) (G : Globals) (fuel : ℕ)
    (data : Dataset) (fv : EdgeVal) (afn : List EligEntry) (sc : SC) :
    ((generateNode cfg G fuel data fv afn sc).1).distribution
      = (distributionLabel G.class_names data).1 := by
  cases fuel with
  | zero => simpa [generateNode] using nodeStep_distribution cfg G Option.none data fv afn sc
  | succ fuel =>
    simpa [generateNode] using
      nodeStep_distribution cfg G (Option.some (generateNode cfg G fuel)) data fv afn sc

/-! ### Invariant: the distribution sums to the sample count -/

lemma generateNode_sum_distribution (cfg : Cfg) (G : Globals)
    (hnd : G.class_names.Nodup) :
    ∀ (fuel : ℕ) (data : Dataset) (fv : EdgeVal) (afn : List EligEntry) (sc : SC),
      (∀ p ∈ data, p.2 ∈ G.class_names) →
      ∀ n, InTree n (generateNode cfg G fuel data fv afn sc).1 →
        n.distribution.sum = n.samples := by
  intro fuel
  induction fuel with
  | zero =>
    intro data fv afn sc hcov n hn
    rcases InTree_cases hn with h | ⟨c, hc, _⟩
    · subst h
      rw [generateNode_distribution, generateNode_samples, distributionLabel_fst]
      exact sum_counts G.class_names data hnd hcov
    · rw [generateNode_zero_childs] at hc
      simp at hc
  | succ fuel ih =>
    intro data fv afn sc hcov n hn
    rcases InTree_cases hn with h | ⟨c, hc, hn'⟩
    · subst h
      rw [generateNode_distribution, generateNode_samples, distributionLabel_fst]
      exact sum_counts G.class_names data hnd hcov
    · rcases generateNode_child_mem cfg G fuel data fv afn sc c hc with
        ⟨e, ho, ht, hms, p, hp, sc', hsub, hcp⟩
      subst hcp
      exact ih p.1 p.2 _ sc'
        (fun q hq => hcov q (splitData_subset G.cats G.nums data e _ p hp q hq)) n hn'

/-! ### Invariant: no node ever owns an empty subset -/

lemma split_parts_nonempty (cfg : Cfg) (G : Globals)
    (hmi : 0 ≤ cfg.min_impurity_decrease) (hlg : G.lg 1 = 0)
    (data : Dataset) (afn : List EligEntry) (hd : data ≠ []) (e : EligEntry)
    (ho : (selectBest G.lg G.class_names G.cats G.nums cfg.min_impurity_decrease data afn).2
        = Option.some e) :
    ∀ part ∈ splitData G.cats G.nums data e
        (selectBest G.lg G.class_names G.cats G.nums cfg.min_impurity_decrease data afn).1,
      part.1 ≠ [] := by
  rcases selectBest_spec G.lg G.class_names G.cats G.nums cfg.min_impurity_decrease data afn e ho
    with ⟨hmem, hgain, hsc, hna⟩
  cases e with
  | group l => rw [hgain] at hna; simp [informationGain] at hna
  | name f =>
    by_cases hc : f ∈ G.cats
    · intro part hpart
      simp only [splitData, hc, if_true] at hpart
      exact categoricalSplit_nonempty data f part hpart
    · by_cases hn : f ∈ G.nums
      · have hIG : informationGain G.lg G.class_names G.cats G.nums data (EligEntry.name f)
            = GainV.pair (numericalInformationGain G.lg G.class_names data f).1
              (numericalInformationGain G.lg G.class_names data f).2 := by
          simp [informationGain, hc, hn]
        rw [hIG] at hgain
        have hpos : 0 < (numericalInformationGain G.lg G.class_names data f).1 := by
          have := lt_of_le_of_lt hmi hsc
          rwa [hgain, GainV.score] at this
        rcases numericalInformationGain_cases G.lg G.class_names data f with hz | ⟨t, _, hres⟩
        · rw [hz] at hpos; simp at hpos
        · have hthr : (numericalInformationGain G.lg G.class_names data f).2 = Option.some t := by
            rw [hres]
          have hgt : numGainAt G.lg G.class_names data f t
              = (numericalInformationGain G.lg G.class_names data f).1 := by
            rw [hres]
          intro part hpart
          simp only [splitData, hc, if_false, hn, if_true, hgain, hthr] at hpart
          simp only [numericalSplit, List.mem_cons, List.mem_singleton] at hpart
          have hno : ¬ (data.filter (fun p => decide ((p.1 f).toNum < (t : ℚ))) = [] ∨
              data.filter (fun p => decide ((t : ℚ) ≤ (p.1 f).toNum)) = []) := by
            intro hcase
            have := numGainAt_empty_branch G.lg G.class_names data f t hd hlg hcase
            rw [hgt] at this
            rw [this] at hpos
            simp at hpos
          push_neg at hno
          rcases hpart with h | h | h
          · rw [h]; exact hno.1
          · rw [h]; exact hno.2
          · simp at h
      · rw [hgain] at hna; simp [informationGain, hc, hn] at hna

lemma generateNode_samples_pos (cfg : Cfg) (G : Globals)
    (hmi : 0 ≤ cfg.min_impurity_decrease) (hlg : G.lg 1 = 0) :
    ∀ (fuel : ℕ) (data : Dataset) (fv : EdgeVal) (afn : List EligEntry) (sc : SC),
      data ≠ [] →
      ∀ n, InTree n (generateNode cfg G fuel data fv afn sc).1 → 1 ≤ n.samples := by
  intro fuel
  induction fuel with
  | zero =>
    intro data fv afn sc hd n hn
    rcases InTree_cases hn with h | ⟨c, hc, _⟩
    · subst h
      rw [generateNode_samples]
      exact List.length_pos.mpr hd
    · rw [generateNode_zero_childs] at hc
      simp at hc
  | succ fuel ih =>
    intro data fv afn sc hd n hn
    rcases InTree_cases hn with h | ⟨c, hc, hn'⟩
    · subst h
      rw [generateNode_samples]
      exact List.length_pos.mpr hd
    · rcases generateNode_child_mem cfg G fuel data fv afn sc c hc with
        ⟨e, ho, ht, hms, p, hp, sc', hsub, hcp⟩
      subst hcp
      exact ih p.1 p.2 _ sc'
        (split_parts_nonempty cfg G hmi hlg data afn hd e ho p hp) n hn'

/-! ### Multiplicity bookkeeping for the eligible list -/

def countName (f : String) (afn : List EligEntry) : ℕ :=
  (afn.filter (fun e => decide (e = EligEntry.name f))).length

lemma countName_zero_iff (f : String) (afn : List EligEntry) :
    countName f afn = 0 ↔ EligEntry.name f ∉ afn := by
  induction afn with
  | nil => simp [countName]
  | cons x r ih =>
    by_cases hx : x = EligEntry.name f
    · subst hx
      simp [countName, List.filter_cons]
    · simp [countName, List.filter_cons, hx, Ne.symm hx] at ih ⊢
      simpa [countName] using ih

lemma countName_pos_of_mem {f : String} {afn : List EligEntry}
    (h : EligEntry.name f ∈ afn) : 1 ≤ countName f afn := by
  by_contra hc
  have : countName f afn = 0 := by omega
  exact (countName_zero_iff f afn).mp this h

lemma countName_eraseFirst_self (f : String) :
    ∀ afn : List EligEntry,
      countName f (eraseFirst afn (EligEntry.name f)) = countName f afn - 1 := by
  intro afn
  induction afn with
  | nil => simp [eraseFirst, countName]
  | cons x r ih =>
    by_cases hx : x = EligEntry.name f
    · subst hx
      simp [eraseFirst, countName, List.filter_cons]
    · simp only [eraseFirst, hx, if_false]
      simp [countName, List.filter_cons, hx] at ih ⊢
      simpa [countName] using ih

lemma countName_eraseFirst_le (f : String) (x : EligEntry) :
    ∀ afn : List EligEntry, countName f (eraseFirst afn x) ≤ countName f afn := by
  intro afn
  induction afn with
  | nil => simp [eraseFirst]
  | cons y r ih =>
    by_cases hy : y = x
    · simp [eraseFirst, hy, countName, List.filter_cons]
      by_cases hx : x = EligEntry.name f <;> simp [hx] <;> omega
    · simp only [eraseFirst, hy, if_false]
      by_cases hyf : y = EligEntry.name f <;>
        simp [countName, List.filter_cons, hyf] at ih ⊢ <;> simpa [countName] using ih

lemma countName_append_one (f : String) (afn : List EligEntry) (x : EligEntry) :
    countName f (afn ++ [x])
      = countName f afn + (if x = EligEntry.name f then 1 else 0) := by
  by_cases hx : x = EligEntry.name f <;> simp [countName, List.filter_append, hx]

lemma countName_le_one_of_nodup {afn : List EligEntry} (h : afn.Nodup) (f : String) :
    countName f afn ≤ 1 := by
  induction afn with
  | nil => simp [countName]
  | cons x r ih =>
    rcases List.nodup_cons.mp h with ⟨hx, hr⟩
    by_cases hxf : x = EligEntry.name f
    · subst hxf
      have hz : countName f r = 0 := (countName_zero_iff f r).mpr hx
      have hcons : countName f (EligEntry.name f :: r) = countName f r + 1 := by
        simp [countName, List.filter_cons]
      omega
    · simp [countName, List.filter_cons, hxf]
      simpa [countName] using ih hr

/-! ### Registry invariant for the once-per-path property -/

lemma scErase_deps_not_mem {sc : SC} {k : String} {v : DepVal}
    (hl : scLookup sc k = Option.some v) (hnd : (scDeps sc).Nodup) :
    ∀ s ∈ v.deps, s ∉ scDeps (scErase sc k) := by
  induction sc with
  | nil => simp [scLookup] at hl
  | cons p r ih =>
    intro s hs
    simp only [scLookup] at hl
    have hnd' : (p.2.deps ++ scDeps r).Nodup := by simpa [scDeps] using hnd
    rcases List.nodup_append.mp hnd' with ⟨hnd1, hnd2, hdisj⟩
    by_cases hp : p.1 = k
    · simp only [hp, if_true, Option.some.injEq] at hl
      subst hl
      simp only [scErase, hp, if_true]
      exact hdisj hs
    · simp only [hp, if_false] at hl
      simp only [scErase, hp, if_false]
      intro hmem
      have hmem' : s ∈ p.2.deps ∨ s ∈ scDeps (scErase r k) := by
        simpa [scDeps] using hmem
      rcases hmem' with h | h
      · have hsr : s ∈ scDeps r := mem_scDeps_of_lookup hl s hs
        exact hdisj h hsr
      · exact ih hl hnd2 s hs h

def RegistryInv (afn : List EligEntry) (sc : SC) : Prop :=
  (scDeps sc).Nodup ∧ (∀ f : String, countName f afn ≤ 1) ∧
  (∀ f : String, EligEntry.name f ∈ afn → f ∉ scDeps sc)

lemma updateAvailable_fst_cases (cats : List String) (e : EligEntry)
    (afn : List EligEntry) (sc : SC) :
    (∃ afn₁, (afn₁ = afn ∨ ∃ f, e = EligEntry.name f ∧ afn₁ = eraseFirst afn (EligEntry.name f)) ∧
      ((updateAvailable cats e afn sc).1 = afn₁ ∨
        ∃ f v, e = EligEntry.name f ∧ scLookup sc f = Option.some v ∧ ¬ sc.isEmpty ∧
          (updateAvailable cats e afn sc).1 = afn₁ ++ [v.toEntry] ∧
          (updateAvailable cats e afn sc).2 = scErase sc f)) := by
  cases e with
  | group l =>
    refine ⟨afn, Or.inl rfl, ?_⟩
    by_cases hs : sc.isEmpty <;> simp [updateAvailable, hs]
  | name f =>
    by_cases hc : f ∈ cats
    · refine ⟨eraseFirst afn (EligEntry.name f), Or.inr ⟨f, rfl, rfl⟩, ?_⟩
      by_cases hs : sc.isEmpty
      · simp [updateAvailable, hc, hs]
      · cases hl : scLookup sc f with
        | none => simp [updateAvailable, hc, hs, hl]
        | some v => exact Or.inr ⟨f, v, rfl, hl, hs, by simp [updateAvailable, hc, hs, hl],
            by simp [updateAvailable, hc, hs, hl]⟩
    · refine ⟨afn, Or.inl rfl, ?_⟩
      by_cases hs : sc.isEmpty
      · simp [updateAvailable, hc, hs]
      · cases hl : scLookup sc f with
        | none => simp [updateAvailable, hc, hs, hl]
        | some v => exact Or.inr ⟨f, v, rfl, hl, hs, by simp [updateAvailable, hc, hs, hl],
            by simp [updateAvailable, hc, hs, hl]⟩

lemma updateAvailable_not_mem (cats : List String) (e : EligEntry)
    (afn : List EligEntry) (sc : SC) (f : String)
    (hf : EligEntry.name f ∉ afn) (hdep : f ∉ scDeps sc) :
    EligEntry.name f ∉ (updateAvailable cats e afn sc).1 := by
  rcases updateAvailable_fst_cases cats e afn sc with ⟨afn₁, h1, h2⟩
  have hafn₁ : EligEntry.name f ∉ afn₁ := by
    rcases h1 with h | ⟨g, _, h⟩
    · rw [h]; exact hf
    · rw [h]; intro hmem; exact hf (eraseFirst_subset afn _ _ hmem)
  rcases h2 with h | ⟨g, v, _, hl, _, heq, _⟩
  · rw [h]; exact hafn₁
  · rw [heq]
    intro hmem
    rcases List.mem_append.mp hmem with h | h
    · exact hafn₁ h
    · simp only [List.mem_singleton] at h
      cases v with
      | one s =>
        simp only [DepVal.toEntry, EligEntry.name.injEq] at h
        have : s ∈ scDeps sc := mem_scDeps_of_lookup hl s (by simp [DepVal.deps])
        rw [← h] at this
        exact hdep this
      | many l => simp [DepVal.toEntry] at h

lemma generateNode_no_split (cfg : Cfg) (G : Globals) (f : String) :
    ∀ (fuel : ℕ) (data : Dataset) (fv : EdgeVal) (afn : List EligEntry) (sc : SC),
      EligEntry.name f ∉ afn → f ∉ scDeps sc →
      ∀ m, InTree m (generateNode cfg G fuel data fv afn sc).1 →
        m.split_feature ≠ Option.some (EligEntry.name f) := by
  intro fuel
  induction fuel with
  | zero =>
    intro data fv afn sc hf hdep m hm
    rcases InTree_cases hm with h | ⟨c, hc, _⟩
    · subst h
      rw [generateNode_split_feature]
      cases ho : (selectBest G.lg G.class_names G.cats G.nums cfg.min_impurity_decrease data afn).2 with
      | none => simp
      | some e =>
        have := (selectBest_spec G.lg G.class_names G.cats G.nums cfg.min_impurity_decrease
          data afn e ho).1
        intro hcontra
        simp only [Option.some.injEq] at hcontra
        rw [hcontra] at this
        exact hf this
    · rw [generateNode_zero_childs] at hc
      simp at hc
  | succ fuel ih =>
    intro data fv afn sc hf hdep m hm
    rcases InTree_cases hm with h | ⟨c, hc, hm'⟩
    · subst h
      rw [generateNode_split_feature]
      cases ho : (selectBest G.lg G.class_names G.cats G.nums cfg.min_impurity_decrease data afn).2 with
      | none => simp
      | some e =>
        have := (selectBest_spec G.lg G.class_names G.cats G.nums cfg.min_impurity_decrease
          data afn e ho).1
        intro hcontra
        simp only [Option.some.injEq] at hcontra
        rw [hcontra] at this
        exact hf this
    · rcases generateNode_child_mem cfg G fuel data fv afn sc c hc with
        ⟨e, ho, ht, hms, p, hp, sc', hsub, hcp⟩
      subst hcp
      have hdep' : f ∉ scDeps sc' := by
        intro hmem
        exact hdep ((scDeps_sublist (hsub.trans (updateAvailable_sc_sublist G.cats e afn sc))).subset hmem)
      exact ih p.1 p.2 _ sc' (updateAvailable_not_mem G.cats e afn sc f hf hdep) hdep' m hm'

lemma updateAvailable_fst_subset (cats : List String) (e : EligEntry)
    (afn : List EligEntry) (sc : SC) (x : EligEntry)
    (hx : x ∈ (updateAvailable cats e afn sc).1) :
    x ∈ afn ∨ ∃ g v, scLookup sc g = Option.some v ∧ x = v.toEntry := by
  rcases updateAvailable_fst_cases cats e afn sc with ⟨afn₁, h1, h2⟩
  have hsub : ∀ y, y ∈ afn₁ → y ∈ afn := by
    rcases h1 with h | ⟨g, _, h⟩
    · rw [h]; intro y hy; exact hy
    · rw [h]; intro y hy; exact eraseFirst_subset afn _ _ hy
  rcases h2 with h | ⟨g, v, _, hl, _, heq, _⟩
  · rw [h] at hx; exact Or.inl (hsub x hx)
  · rw [heq] at hx
    rcases List.mem_append.mp hx with h | h
    · exact Or.inl (hsub x h)
    · simp only [List.mem_singleton] at h
      exact Or.inr ⟨g, v, hl, h⟩

lemma updateAvailable_inv (cats : List String) (e : EligEntry)
    (afn : List EligEntry) (sc : SC) (hinv : RegistryInv afn sc) :
    ∀ sc', List.Sublist sc' (updateAvailable cats e afn sc).2 →
      RegistryInv (updateAvailable cats e afn sc).1 sc' := by
  rcases hinv with ⟨hnd, hcnt, hmem⟩
  intro sc' hsub
  rcases updateAvailable_fst_cases cats e afn sc with ⟨afn₁, h1, h2⟩
  have hcnt₁ : ∀ f, countName f afn₁ ≤ countName f afn := by
    rcases h1 with h | ⟨g, _, h⟩
    · rw [h]; intro f; exact le_refl _
    · rw [h]; intro f; exact countName_eraseFirst_le f _ afn
  have hsub₁ : ∀ y, y ∈ afn₁ → y ∈ afn := by
    rcases h1 with h | ⟨g, _, h⟩
    · rw [h]; intro y hy; exact hy
    · rw [h]; intro y hy; exact eraseFirst_subset afn _ _ hy
  have hscsub : List.Sublist sc' sc :=
    hsub.trans (updateAvailable_sc_sublist cats e afn sc)
  have hnd' : (scDeps sc').Nodup := (scDeps_sublist hscsub).nodup hnd
  rcases h2 with h | ⟨g, v, _, hl, _, heq, heq2⟩
  · rw [h]
    refine ⟨hnd', fun f => le_trans (hcnt₁ f) (hcnt f), ?_⟩
    intro f hf hcontra
    exact hmem f (hsub₁ _ hf) ((scDeps_sublist hscsub).subset hcontra)
  · rw [heq]
    rw [heq2] at hsub
    refine ⟨hnd', ?_, ?_⟩
    · intro f
      rw [countName_append_one]
      by_cases hx : v.toEntry = EligEntry.name f
      · cases v with
        | one s =>
          simp only [DepVal.toEntry, EligEntry.name.injEq] at hx
          subst hx
          have hdeps : s ∈ scDeps sc := mem_scDeps_of_lookup hl s (by simp [DepVal.deps])
          have hnot : EligEntry.name s ∉ afn := fun hmem' => hmem s hmem' hdeps
          have : countName s afn = 0 := (countName_zero_iff s afn).mpr hnot
          have h0 : countName s afn₁ = 0 := by
            have := hcnt₁ s
            omega
          simp [DepVal.toEntry, h0]
        | many l => simp [DepVal.toEntry] at hx
      · simp only [hx, if_false]
        have := hcnt₁ f
        have := hcnt f
        omega
    · intro f hf hcontra
      rcases List.mem_append.mp hf with h | h
      · exact hmem f (hsub₁ _ h) ((scDeps_sublist hscsub).subset hcontra)
      · simp only [List.mem_singleton] at h
        cases v with
        | one s =>
          simp only [DepVal.toEntry, EligEntry.name.injEq] at h
          subst h
          have : f ∉ scDeps (scErase sc g) :=
            scErase_deps_not_mem hl hnd f (by simp [DepVal.deps])
          exact this ((scDeps_sublist hsub).subset hcontra)
        | many l => simp [DepVal.toEntry] at h

lemma updateAvailable_fst_of_cat (cats : List String) (f : String)
    (afn : List EligEntry) (sc : SC) (hc : f ∈ cats) :
    (updateAvailable cats (EligEntry.name f) afn sc).1 = eraseFirst afn (EligEntry.name f) ∨
    ∃ v, scLookup sc f = Option.some v ∧
      (updateAvailable cats (EligEntry.name f) afn sc).1
        = eraseFirst afn (EligEntry.name f) ++ [v.toEntry] := by
  by_cases hs : sc.isEmpty
  · simp [updateAvailable, hc, hs]
  · cases hl : scLookup sc f with
    | none => simp [updateAvailable, hc, hs, hl]
    | some v => exact Or.inr ⟨v, rfl, by simp [updateAvailable, hc, hs, hl]⟩

lemma updateAvailable_removes (cats : List String) (f : String)
    (afn : List EligEntry) (sc : SC) (hc : f ∈ cats)
    (hcount : countName f afn ≤ 1) (hdep : f ∉ scDeps sc) :
    EligEntry.name f ∉ (updateAvailable cats (EligEntry.name f) afn sc).1 := by
  have herase : EligEntry.name f ∉ eraseFirst afn (EligEntry.name f) := by
    rw [← countName_zero_iff]
    have := countName_eraseFirst_self f afn
    omega
  rcases updateAvailable_fst_of_cat cats f afn sc hc with h | ⟨v, hl, h⟩
  · rw [h]; exact herase
  · rw [h]
    intro hmem
    rcases List.mem_append.mp hmem with h' | h'
    · exact herase h'
    · simp only [List.mem_singleton] at h'
      cases v with
      | one s =>
        simp only [DepVal.toEntry, EligEntry.name.injEq] at h'
        have : s ∈ scDeps sc := mem_scDeps_of_lookup hl s (by simp [DepVal.deps])
        rw [← h'] at this
        exact hdep this
      | many l => simp [DepVal.toEntry] at h'

lemma generateNode_cat_once (cfg : Cfg) (G : Globals) :
    ∀ (fuel : ℕ) (data : Dataset) (fv : EdgeVal) (afn : List EligEntry) (sc : SC),
      RegistryInv afn sc →
      ∀ n m f, InTree n (generateNode cfg G fuel data fv afn sc).1 →
        n.split_feature = Option.some (EligEntry.name f) → f ∈ G.cats →
        (∃ c ∈ n.childs, InTree m c) →
        m.split_feature ≠ Option.some (EligEntry.name f) := by
  intro fuel
  induction fuel with
  | zero =>
    intro data fv afn sc hinv n m f hn hsplit hcat hex
    rcases hex with ⟨c, hc, hm⟩
    rcases InTree_cases hn with h | ⟨c₀, hc₀, _⟩
    · subst h
      rw [generateNode_zero_childs] at hc
      simp at hc
    · rw [generateNode_zero_childs] at hc₀
      simp at hc₀
  | succ fuel ih =>
    intro data fv afn sc hinv n m f hn hsplit hcat hex
    rcases hex with ⟨c, hc, hm⟩
    rcases InTree_cases hn with h | ⟨c₀, hc₀, hn'⟩
    · subst h
      rcases generateNode_child_mem cfg G fuel data fv afn sc c hc with
        ⟨e, ho, ht, hms, p, hp, sc', hsub, hcp⟩
      have hsf : (selectBest G.lg G.class_names G.cats G.nums cfg.min_impurity_decrease
          data afn).2 = Option.some (EligEntry.name f) := by
        rw [← generateNode_split_feature cfg G (fuel + 1) data fv afn sc]
        exact hsplit
      have he : e = EligEntry.name f := by
        rw [ho] at hsf
        simpa using hsf
      subst he
      have hmemafn := (selectBest_spec G.lg G.class_names G.cats G.nums
        cfg.min_impurity_decrease data afn (EligEntry.name f) ho).1
      rcases hinv with ⟨hnd, hcnt, hmemdep⟩
      have hdep : f ∉ scDeps sc := hmemdep f hmemafn
      have hnotin : EligEntry.name f
          ∉ (updateAvailable G.cats (EligEntry.name f) afn sc).1 :=
        updateAvailable_removes G.cats f afn sc hcat (hcnt f) hdep
      have hdep' : f ∉ scDeps sc' := fun hx => hdep
        ((scDeps_sublist (hsub.trans
          (updateAvailable_sc_sublist G.cats (EligEntry.name f) afn sc))).subset hx)
      subst hcp
      exact generateNode_no_split cfg G f fuel p.1 p.2 _ sc' hnotin hdep' m hm
    · rcases generateNode_child_mem cfg G fuel data fv afn sc c₀ hc₀ with
        ⟨e, ho, ht, hms, p, hp, sc', hsub, hcp⟩
      subst hcp
      exact ih p.1 p.2 _ sc' (updateAvailable_inv G.cats e afn sc hinv sc' hsub)
        n m f hn' hsplit hcat ⟨c, hc, hm⟩

/-! ### The initial eligible list and the sorted class list -/

lemma countName_fold_erase_le (f : String) :
    ∀ (l : List String) (afn : List EligEntry),
      countName f (l.foldl (fun a s => eraseFirst a (EligEntry.name s)) afn)
        ≤ countName f afn := by
  intro l
  induction l with
  | nil => intro afn; exact le_refl _
  | cons s r ih =>
    intro afn
    simp only [List.foldl_cons]
    exact le_trans (ih _) (countName_eraseFirst_le f _ afn)

lemma fold_erase_not_mem (h : String) :
    ∀ (l : List String) (afn : List EligEntry), h ∈ l → countName h afn ≤ 1 →
      EligEntry.name h ∉ l.foldl (fun a s => eraseFirst a (EligEntry.name s)) afn := by
  intro l
  induction l with
  | nil => intro afn hmem; simp at hmem
  | cons s r ih =>
    intro afn hmem hcnt
    simp only [List.foldl_cons]
    by_cases hs : s = h
    · subst hs
      have h0 : countName s (eraseFirst afn (EligEntry.name s)) = 0 := by
        have := countName_eraseFirst_self s afn
        omega
      rw [← countName_zero_iff]
      have := countName_fold_erase_le s r (eraseFirst afn (EligEntry.name s))
      omega
    · have hmem' : h ∈ r := by
        rcases List.mem_cons.mp hmem with h' | h'
        · exact absurd h'.symm hs
        · exact h'
      exact ih _ hmem' (le_trans (countName_eraseFirst_le h _ afn) hcnt)

lemma initialAvailable_inv (cols : List String) (sc : SC)
    (hnd : (scDeps sc).Nodup) (hcols : cols.Nodup) :
    RegistryInv (initialAvailable cols sc) sc := by
  have hmapnd : (cols.map EligEntry.name).Nodup :=
    hcols.map (fun a b hab => by simpa using hab)
  have hbase : ∀ f, countName f (cols.map EligEntry.name) ≤ 1 :=
    fun f => countName_le_one_of_nodup hmapnd f
  refine ⟨hnd, ?_, ?_⟩
  · intro f
    exact le_trans (countName_fold_erase_le f (scDeps sc) (cols.map EligEntry.name)) (hbase f)
  · intro f hf hdep
    exact fold_erase_not_mem f (scDeps sc) (cols.map EligEntry.name) hdep (hbase f) hf

lemma sortedClasses_nodup (data : Dataset) : (sortedClasses data).Nodup := by
  have hperm := List.perm_insertionSort (fun a b : ℕ => a ≤ b) ((data.map Prod.snd).dedup)
  exact hperm.nodup_iff.mpr (List.nodup_dedup _)

lemma mem_sortedClasses (data : Dataset) : ∀ p ∈ data, p.2 ∈ sortedClasses data := by
  intro p hp
  have hperm := List.perm_insertionSort (fun a b : ℕ => a ≤ b) ((data.map Prod.snd).dedup)
  exact hperm.mem_iff.mpr (List.mem_dedup.mpr (List.mem_map.mpr ⟨p, hp, rfl⟩))

/-! ### The specification's view of the selection loop -/

/-- Modelled from the spec: "a candidate only wins with a strictly greater
score", comparing "the scalar component (score) regardless of form"; a
feature with no gain value (`None`) is never a candidate. -/
def specStep (lg : ℚ → ℚ) (cls : List ℕ) (cats nums : List String) (data : Dataset)
    (best : GainV × Option EligEntry) (e : EligEntry) : GainV × Option EligEntry :=
  match informationGain lg cls cats nums data e with
  | GainV.na => best
  | g => if best.1.score < g.score then (g, Option.some e) else best

lemma gainStep_eq_specStep (lg : ℚ → ℚ) (cls : List ℕ) (cats nums : List String)
    (data : Dataset) (acc : GainV × Option EligEntry) (e : EligEntry)
    (hna : acc.1 ≠ GainV.na) :
    gainStep lg cls cats nums data acc e = specStep lg cls cats nums data acc e := by
  cases hb : acc.1 with
  | scalar b =>
    cases hI : informationGain lg cls cats nums data e with
    | scalar c => simp [gainStep, specStep, hb, hI, GainV.score]
    | pair c t => simp [gainStep, specStep, hb, hI, GainV.score]
    | na => simp [gainStep, specStep, hb, hI]
  | pair b t =>
    cases hI : informationGain lg cls cats nums data e with
    | scalar c => simp [gainStep, specStep, hb, hI, GainV.score]
    | pair c t' => simp [gainStep, specStep, hb, hI, GainV.score]
    | na => simp [gainStep, specStep, hb, hI]
  | na => exact absurd hb hna

lemma gainStep_fst_ne_na (lg : ℚ → ℚ) (cls : List ℕ) (cats nums : List String)
    (data : Dataset) (acc : GainV × Option EligEntry) (e : EligEntry)
    (hna : acc.1 ≠ GainV.na) :
    (gainStep lg cls cats nums data acc e).1 ≠ GainV.na := by
  rcases gainStep_cases lg cls cats nums data acc e with h | ⟨h, _, hne⟩
  · rw [h]; exact hna
  · rw [h]; exact hne

lemma foldl_gainStep_eq_specStep (lg : ℚ → ℚ) (cls : List ℕ) (cats nums : List String)
    (data : Dataset) :
    ∀ (feats : List EligEntry) (acc : GainV × Option EligEntry), acc.1 ≠ GainV.na →
      List.foldl (gainStep lg cls cats nums data) acc feats
        = List.foldl (specStep lg cls cats nums data) acc feats := by
  intro feats
  induction feats with
  | nil => intro acc _; rfl
  | cons e r ih =>
    intro acc hna
    simp only [List.foldl_cons]
    rw [← gainStep_eq_specStep lg cls cats nums data acc e hna]
    exact ih _ (gainStep_fst_ne_na lg cls cats nums data acc e hna)

/-! ### The entropy functions only evaluate the logarithm on positive ratios -/

lemma categoricalFeatureEntropy_congr (lg lg' : ℚ → ℚ) (xs : List Row) (f : String)
    (h : ∀ q : ℚ, 0 < q → lg q = lg' q) :
    categoricalFeatureEntropy lg xs f = categoricalFeatureEntropy lg' xs f := by
  simp only [categoricalFeatureEntropy]
  apply foldl_congr_of_mem
  intro b v hv
  have hxs : ∃ r ∈ xs, r f = v := by
    rcases List.mem_map.mp (List.mem_dedup.mp hv) with ⟨r, hr, hrv⟩
    exact ⟨r, hr, hrv⟩
  rcases hxs with ⟨r, hr, hrv⟩
  have hmpos : 0 < (xs.filter (fun r => decide (r f = v))).length := by
    apply List.length_pos.mpr
    intro hnil
    have : r ∈ xs.filter (fun r => decide (r f = v)) :=
      List.mem_filter.mpr ⟨hr, by simp [hrv]⟩
    simp [hnil] at this
  have hnpos : 0 < xs.length := List.length_pos.mpr (by intro hnil; simp [hnil] at hr)
  have hq : (0 : ℚ) < ((xs.filter (fun r => decide (r f = v))).length : ℚ) / (xs.length : ℚ) :=
    div_pos (by exact_mod_cast hmpos) (by exact_mod_cast hnpos)
  have hm0 : ¬ ((((xs.filter (fun r => decide (r f = v))).length : ℚ)) = 0) := by
    exact_mod_cast Nat.pos_iff_ne_zero.mp hmpos
  simp only [ne_eq, hm0, not_false_eq_true, if_true]
  rw [h _ hq]

lemma numericalFeatureEntropy_congr (lg lg' : ℚ → ℚ) (xs : List Row) (f : String) (t : ℕ)
    (h : ∀ q : ℚ, 0 < q → lg q = lg' q) :
    numericalFeatureEntropy lg xs f t = numericalFeatureEntropy lg' xs f t := by
  simp only [numericalFeatureEntropy]
  have hle1 : (xs.filter (fun r => decide ((r f).toNum < (t : ℚ)))).length ≤ xs.length :=
    List.length_filter_le _ _
  have hle2 : (xs.filter (fun r => decide ((t : ℚ) ≤ (r f).toNum))).length ≤ xs.length :=
    List.length_filter_le _ _
  by_cases h1 : ((xs.filter (fun r => decide ((r f).toNum < (t : ℚ)))).length : ℚ) = 0
  · by_cases h2 : ((xs.filter (fun r => decide ((t : ℚ) ≤ (r f).toNum))).length : ℚ) = 0
    · simp [h1, h2]
    · have hmore : 0 < (xs.filter (fun r => decide ((t : ℚ) ≤ (r f).toNum))).length :=
        Nat.pos_of_ne_zero (by exact_mod_cast h2)
      have hn : 0 < xs.length := lt_of_lt_of_le hmore hle2
      have hq : (0 : ℚ) < ((xs.filter (fun r => decide ((t : ℚ) ≤ (r f).toNum))).length : ℚ)
          / (xs.length : ℚ) := div_pos (by exact_mod_cast hmore) (by exact_mod_cast hn)
      simp only [h1, h2, if_true, if_false, true_and, and_false, false_and]
      rw [h _ hq]
  · have hless : 0 < (xs.filter (fun r => decide ((r f).toNum < (t : ℚ)))).length :=
      Nat.pos_of_ne_zero (by exact_mod_cast h1)
    have hn : 0 < xs.length := lt_of_lt_of_le hless hle1
    have hq1 : (0 : ℚ) < ((xs.filter (fun r => decide ((r f).toNum < (t : ℚ)))).length : ℚ)
        / (xs.length : ℚ) := div_pos (by exact_mod_cast hless) (by exact_mod_cast hn)
    by_cases h2 : ((xs.filter (fun r => decide ((t : ℚ) ≤ (r f).toNum))).length : ℚ) = 0
    · simp only [h1, h2, if_true, if_false, false_and, and_true, and_false]
      rw [h _ hq1]
    · have hmore : 0 < (xs.filter (fun r => decide ((t : ℚ) ≤ (r f).toNum))).length :=
        Nat.pos_of_ne_zero (by exact_mod_cast h2)
      have hq2 : (0 : ℚ) < ((xs.filter (fun r => decide ((t : ℚ) ≤ (r f).toNum))).length : ℚ)
          / (xs.length : ℚ) := div_pos (by exact_mod_cast hmore) (by exact_mod_cast hn)
      simp only [h1, h2, if_false, false_and, and_false]
      rw [h _ hq1, h _ hq2]

/-! ### A concrete training set used to exercise the theorems -/

/-- A stand-in for `math.log2` agreeing with it at 1 and 1/2
(`lgEx 1 = 0`, `lgEx (1/2) = -1/2`, the only values the example hits). -/
def lgEx : ℚ → ℚ := fun q => q - 1

def rxEx : Row := fun f => if f = "a" then Value.str "x" else Value.str "z"

def ryEx : Row := fun f => if f = "a" then Value.str "y" else Value.str "z"

def dataEx : Dataset := [(rxEx, 0), (ryEx, 1)]

def scEx : SC := [("a", DepVal.one "b")]

def colsEx : List String := ["a", "b"]

def catsEx : List String := ["a", "b"]

def gEx : Globals := ⟨lgEx, [0, 1], catsEx, []⟩

lemma sortedClassesEx : sortedClasses dataEx = [0, 1] := by
  simp [sortedClasses, dataEx, List.dedup_cons_of_not_mem, List.insertionSort, List.orderedInsert]

lemma initialAvailableEx : initialAvailable colsEx scEx = [EligEntry.name "a"] := by
  simp [initialAvailable, colsEx, scEx, scDeps, DepVal.deps, eraseFirst]

lemma catGainEx : categoricalInformationGain lgEx [0, 1] dataEx "a" = 1 / 2 := by
  simp [categoricalInformationGain, categoricalFeatureEntropy, dataEx, rxEx, ryEx, lgEx,
    List.dedup_cons_of_not_mem, List.filter_cons]
  norm_num

lemma infoGainEx : informationGain lgEx [0, 1] catsEx [] dataEx (EligEntry.name "a")
    = GainV.scalar (1 / 2) := by
  simp [informationGain, catsEx, catGainEx]

lemma selectBestEx : selectBest lgEx [0, 1] catsEx [] (1 / 20) dataEx [EligEntry.name "a"]
    = (GainV.scalar (1 / 2), Option.some (EligEntry.name "a")) := by
  simp [selectBest, gainStep, infoGainEx]
  norm_num

lemma updateAvailableEx :
    updateAvailable catsEx (EligEntry.name "a") [EligEntry.name "a"] scEx
      = ([EligEntry.name "b"], []) := by
  simp [updateAvailable, catsEx, scEx, scLookup, scErase, eraseFirst, DepVal.toEntry]

lemma splitDataEx :
    splitData catsEx [] dataEx (EligEntry.name "a") (GainV.scalar (1 / 2))
      = [([(rxEx, 0)], EdgeVal.val (Value.str "x")),
         ([(ryEx, 1)], EdgeVal.val (Value.str "y"))] := by
  simp [splitData, catsEx, categoricalSplit, dataEx, rxEx, ryEx,
    List.dedup_cons_of_not_mem, List.filter_cons]

lemma distributionLabelEx : distributionLabel [0, 1] dataEx = ([1, 1], Option.some 0) := by
  simp [distributionLabel, dataEx, List.filter_cons]

lemma distributionLabelX : distributionLabel [0, 1] [(rxEx, 0)] = ([1, 0], Option.some 0) := by
  simp [distributionLabel, List.filter_cons]

lemma distributionLabelY : distributionLabel [0, 1] [(ryEx, 1)] = ([0, 1], Option.some 1) := by
  simp [distributionLabel, List.filter_cons]

lemma catGainX : categoricalInformationGain lgEx [0, 1] [(rxEx, 0)] "b" = 0 := by
  simp [categoricalInformationGain, categoricalFeatureEntropy, rxEx, lgEx,
    List.dedup_cons_of_not_mem, List.filter_cons]

lemma catGainY : categoricalInformationGain lgEx [0, 1] [(ryEx, 1)] "b" = 0 := by
  simp [categoricalInformationGain, categoricalFeatureEntropy, ryEx, lgEx,
    List.dedup_cons_of_not_mem, List.filter_cons]

lemma selectBestX : selectBest lgEx [0, 1] catsEx [] (1 / 20) [(rxEx, 0)] [EligEntry.name "b"]
    = (GainV.scalar (1 / 20), Option.none) := by
  have hIG : informationGain lgEx [0, 1] catsEx [] [(rxEx, 0)] (EligEntry.name "b")
      = GainV.scalar 0 := by
    simp [informationGain, catsEx, catGainX]
  have hnlt : ¬ ((1 : ℚ) / 20 < 0) := by norm_num
  simp [selectBest, gainStep, hIG, hnlt]

lemma selectBestY : selectBest lgEx [0, 1] catsEx [] (1 / 20) [(ryEx, 1)] [EligEntry.name "b"]
    = (GainV.scalar (1 / 20), Option.none) := by
  have hIG : informationGain lgEx [0, 1] catsEx [] [(ryEx, 1)] (EligEntry.name "b")
      = GainV.scalar 0 := by
    simp [informationGain, catsEx, catGainY]
  have hnlt : ¬ ((1 : ℚ) / 20 < 0) := by norm_num
  simp [selectBest, gainStep, hIG, hnlt]

def nodeXEx : Node :=
  Node.mk Option.none (EdgeVal.val (Value.str "x")) 1 [1, 0] (Option.some 0) []

def nodeYEx : Node :=
  Node.mk Option.none (EdgeVal.val (Value.str "y")) 1 [0, 1] (Option.some 1) []

lemma defaultCfg_minImp : defaultCfg.min_impurity_decrease = 1 / 20 := rfl

lemma defaultCfg_minSplit : defaultCfg.min_samples_split = 2 := rfl

lemma gEx_lg : gEx.lg = lgEx := rfl

lemma gEx_cls : gEx.class_names = [0, 1] := rfl

lemma gEx_cats : gEx.cats = catsEx := rfl

lemma gEx_nums : gEx.nums = [] := rfl

lemma dataEx_length : dataEx.length = 2 := rfl

lemma generateNodeX :
    generateNode defaultCfg gEx 2 [(rxEx, 0)] (EdgeVal.val (Value.str "x"))
      [EligEntry.name "b"] [] = (nodeXEx, []) := by
  show nodeStep defaultCfg gEx (Option.some (generateNode defaultCfg gEx 1))
      [(rxEx, 0)] (EdgeVal.val (Value.str "x")) [EligEntry.name "b"] [] = (nodeXEx, [])
  simp only [nodeStep, defaultCfg_minImp, defaultCfg_minSplit, gEx_lg, gEx_cls, gEx_cats,
    gEx_nums]
  rw [selectBestX]
  simp [distributionLabelX, nodeXEx]

lemma generateNodeY :
    generateNode defaultCfg gEx 2 [(ryEx, 1)] (EdgeVal.val (Value.str "y"))
      [EligEntry.name "b"] [] = (nodeYEx, []) := by
  show nodeStep defaultCfg gEx (Option.some (generateNode defaultCfg gEx 1))
      [(ryEx, 1)] (EdgeVal.val (Value.str "y")) [EligEntry.name "b"] [] = (nodeYEx, [])
  simp only [nodeStep, defaultCfg_minImp, defaultCfg_minSplit, gEx_lg, gEx_cls, gEx_cats,
    gEx_nums]
  rw [selectBestY]
  simp [distributionLabelY, nodeYEx]

def rootEx : Node :=
  Node.mk (Option.some (EligEntry.name "a")) EdgeVal.root 2 [1, 1] (Option.some 0)
    [nodeXEx, nodeYEx]

lemma generateNodeRootEx :
    generateNode defaultCfg gEx 3 dataEx EdgeVal.root [EligEntry.name "a"] scEx
      = (rootEx, []) := by
  show nodeStep defaultCfg gEx (Option.some (generateNode defaultCfg gEx 2))
      dataEx EdgeVal.root [EligEntry.name "a"] scEx = (rootEx, [])
  simp only [nodeStep, defaultCfg_minImp, defaultCfg_minSplit, gEx_lg, gEx_cls, gEx_cats,
    gEx_nums]
  rw [selectBestEx]
  dsimp only
  rw [updateAvailableEx, splitDataEx]
  simp [buildChildren, generateNodeX, generateNodeY, distributionLabelEx, rootEx,
    dataEx_length, EligEntry.truthy]

def fitEx : FitResult := fit defaultCfg lgEx 3 colsEx catsEx [] dataEx scEx

lemma fitEx_parts : fitEx.tree = rootEx ∧ fitEx.special_cases_after = [] := by
  have hG : (⟨lgEx, sortedClasses dataEx, catsEx, ([] : List String)⟩ : Globals) = gEx := by
    rw [sortedClassesEx]
    rfl
  simp only [fitEx, fit]
  rw [initialAvailableEx, hG, generateNodeRootEx]
  exact ⟨rfl, rfl⟩

/-! ### The claims -/

/-- Claim C1 (code bug): when the special-case value is a *list* of dependent
feature names, `_generate_node` appends the list itself as one element of
the eligible list instead of the individual names: with registry
`{"a": ["b", "c"]}` and best feature `"a"`, the updated eligible list is
`[["b", "c"]]` — neither `"b"` nor `"c"` becomes individually eligible —
while the key `"a"` is indeed removed from the registry. -/
theorem claim1_list_dependents_bug :
    (updateAvailable ["a"] (EligEntry.name "a") [EligEntry.name "a"]
        [("a", DepVal.many ["b", "c"])]).1 = [EligEntry.group ["b", "c"]] ∧
    EligEntry.name "b" ∉ (updateAvailable ["a"] (EligEntry.name "a") [EligEntry.name "a"]
        [("a", DepVal.many ["b", "c"])]).1 ∧
    EligEntry.name "c" ∉ (updateAvailable ["a"] (EligEntry.name "a") [EligEntry.name "a"]
        [("a", DepVal.many ["b", "c"])]).1 ∧
    (updateAvailable ["a"] (EligEntry.name "a") [EligEntry.name "a"]
        [("a", DepVal.many ["b", "c"])]).2 = [] := by
  refine ⟨?_, ?_, ?_, ?_⟩ <;>
    simp [updateAvailable, scLookup, scErase, eraseFirst, DepVal.toEntry]

/-- Claim C2 (counterexample): `fit` does *not* pass a working copy of the
special-case registry.  On a two-row training set where the prerequisite
feature `"a"` wins the root split, the caller's registry `{"a": "b"}` is
left empty after `fit` returns, not equal to its original contents. -/
theorem claim2_registry_mutated_cex :
    (fit defaultCfg lgEx 3 colsEx catsEx [] dataEx scEx).special_cases_after = [] ∧
    scEx ≠ ([] : SC) := by
  refine ⟨?_, by simp [scEx]⟩
  have h := fitEx_parts.2
  simpa [fitEx] using h

/-- Claim C2 (amended): `fit` hands `_generate_node` the caller's registry
object itself; the registry is only ever consumed (keys popped), so after
`fit` the caller's mapping is a subsequence of its original entries — equal
to the original exactly when no prerequisite feature was chosen. -/
theorem claim2_registry_shrinks (cfg : Cfg) (lg : ℚ → ℚ) (fuel : ℕ)
    (cols cats nums : List String) (data : Dataset) (sc : SC) :
    List.Sublist (fit cfg lg fuel cols cats nums data sc).special_cases_after sc := by
  simp only [fit]
  exact generateNode_sc_sublist cfg ⟨lg, sortedClasses data, cats, nums⟩ fuel data
    EdgeVal.root (initialAvailable cols sc) sc

/-- Claim C3: the categorical information gain is exactly
`H(subset, F) − Σ_c (|rows labeled c| / n) · H(rows labeled c, F)`,
the sum ranging over the class list in order. -/
theorem claim3_categorical_gain_formula (lg : ℚ → ℚ) (cls : List ℕ) (data : Dataset)
    (f : String) (hd : data ≠ []) :
    categoricalInformationGain lg cls data f
      = categoricalFeatureEntropy lg (data.map Prod.fst) f
        - (cls.map (fun c =>
            (((data.filter (fun p => decide (p.2 = c))).length : ℚ) / ((data.length : ℕ) : ℚ)) *
              categoricalFeatureEntropy lg
                ((data.filter (fun p => decide (p.2 = c))).map Prod.fst) f)).sum := by
  simp only [categoricalInformationGain]
  rw [foldl_add_eq_sum]
  ring

/-- Claim C3 witness: the formula instantiated on the concrete two-row
training set. -/
theorem claim3_witness :
    dataEx ≠ [] ∧
    categoricalInformationGain lgEx [0, 1] dataEx "a"
      = categoricalFeatureEntropy lgEx (dataEx.map Prod.fst) "a"
        - (([0, 1] : List ℕ).map (fun c =>
            (((dataEx.filter (fun p => decide (p.2 = c))).length : ℚ) / ((dataEx.length : ℕ) : ℚ)) *
              categoricalFeatureEntropy lgEx
                ((dataEx.filter (fun p => decide (p.2 = c))).map Prod.fst) "a")).sum :=
  ⟨by simp [dataEx], claim3_categorical_gain_formula lgEx [0, 1] dataEx "a" (by simp [dataEx])⟩

/-! ### A numerical one-row example where every threshold gain is zero -/

def rnEx : Row := fun _ => Value.num 2

def dnEx : Dataset := [(rnEx, 0)]

lemma numGainAtEx (t : ℕ) : numGainAt lgEx [0] dnEx "F" t = 0 := by
  simp [numGainAt, dnEx, List.filter_cons]

lemma numThresholdCountEx : numThresholdCount (dnEx.map Prod.fst) "F" = 2 := by
  have hmax : maxColumn (dnEx.map Prod.fst) "F" = 2 := by
    simp [maxColumn, dnEx, rnEx, Value.toNum]
  rw [numThresholdCount, hmax]
  have hfl : ⌊(2 : ℚ)⌋ = 2 := by norm_num
  rw [hfl]
  rfl

lemma numericalInformationGainEx :
    numericalInformationGain lgEx [0] dnEx "F" = (0, Option.none) := by
  rw [numericalInformationGain, numThresholdCountEx]
  have h2 : List.range 2 = [0, 1] := by simp [List.range_succ]
  rw [h2]
  simp [bestThreshold, numGainAtEx]

/-- Claim C4 (counterexample): on the one-row subset `{F: 2}` the thresholds
0 and 1 are both examined and every per-threshold gain is 0, yet
`_numerical_information_gain` returns `(0, None)`: the returned threshold
component is `None` and does not attain the maximum of the per-threshold
gains (which is 0, attained at threshold 0). -/
theorem claim4_threshold_none_cex :
    numericalInformationGain lgEx [0] dnEx "F" = (0, Option.none) ∧
    numThresholdCount (dnEx.map Prod.fst) "F" = 2 ∧
    numGainAt lgEx [0] dnEx "F" 0 = 0 :=
  ⟨numericalInformationGainEx, numThresholdCountEx, numGainAtEx 0⟩

/-- Claim C4 (amended): the returned gain component dominates every
per-threshold gain and the initial value 0; the result is either `(0, None)`
— when no threshold achieved a strictly positive gain — or
`(gain(t), Some t)` for an examined threshold `t` attaining the returned
gain. -/
theorem claim4_best_threshold (lg : ℚ → ℚ) (cls : List ℕ) (data : Dataset) (f : String)
    (hd : data ≠ []) :
    (∀ t ∈ List.range (numThresholdCount (data.map Prod.fst) f),
      numGainAt lg cls data f t ≤ (numericalInformationGain lg cls data f).1) ∧
    0 ≤ (numericalInformationGain lg cls data f).1 ∧
    (numericalInformationGain lg cls data f = (0, Option.none) ∨
      ∃ t ∈ List.range (numThresholdCount (data.map Prod.fst) f),
        numericalInformationGain lg cls data f
          = (numGainAt lg cls data f t, Option.some t)) := by
  refine ⟨?_, numericalInformationGain_nonneg lg cls data f,
    numericalInformationGain_cases lg cls data f⟩
  intro t ht
  simpa [numericalInformationGain, bestThreshold] using
    bestThreshold_ge (numGainAt lg cls data f)
      (List.range (numThresholdCount (data.map Prod.fst) f)) (0, Option.none) t ht

/-- Claim C4 witness: the amended characterisation instantiated on the
concrete one-row numerical subset. -/
theorem claim4_witness :
    dnEx ≠ [] ∧
    ((∀ t ∈ List.range (numThresholdCount (dnEx.map Prod.fst) "F"),
      numGainAt lgEx [0] dnEx "F" t ≤ (numericalInformationGain lgEx [0] dnEx "F").1) ∧
    0 ≤ (numericalInformationGain lgEx [0] dnEx "F").1 ∧
    (numericalInformationGain lgEx [0] dnEx "F" = (0, Option.none) ∨
      ∃ t ∈ List.range (numThresholdCount (dnEx.map Prod.fst) "F"),
        numericalInformationGain lgEx [0] dnEx "F"
          = (numGainAt lgEx [0] dnEx "F" t, Option.some t))) :=
  ⟨by simp [dnEx], claim4_best_threshold lgEx [0] dnEx "F" (by simp [dnEx])⟩

/-- Claim C5: in every fitted tree the distribution vector of every node
sums to the node's sample count, and the root's sample count is the number
of training rows. -/
theorem claim5_distribution_sums (cfg : Cfg) (lg : ℚ → ℚ) (fuel : ℕ)
    (cols cats nums : List String) (data : Dataset) (sc : SC) :
    (fit cfg lg fuel cols cats nums data sc).tree.samples = data.length ∧
    ∀ n, InTree n (fit cfg lg fuel cols cats nums data sc).tree →
      n.distribution.sum = n.samples := by
  constructor
  · simp only [fit]
    exact generateNode_samples cfg ⟨lg, sortedClasses data, cats, nums⟩ fuel data
      EdgeVal.root (initialAvailable cols sc) sc
  · simp only [fit]
    intro n hn
    exact generateNode_sum_distribution cfg ⟨lg, sortedClasses data, cats, nums⟩
      (sortedClasses_nodup data) fuel data EdgeVal.root (initialAvailable cols sc) sc
      (mem_sortedClasses data) n hn

/-- Claim C5 witness: the invariant read off at the root of the concrete
fitted tree. -/
theorem claim5_witness :
    (fit defaultCfg lgEx 3 colsEx catsEx [] dataEx scEx).tree.samples = dataEx.length ∧
    (fit defaultCfg lgEx 3 colsEx catsEx [] dataEx scEx).tree.distribution.sum
      = (fit defaultCfg lgEx 3 colsEx catsEx [] dataEx scEx).tree.samples :=
  ⟨(claim5_distribution_sums defaultCfg lgEx 3 colsEx catsEx [] dataEx scEx).1,
    (claim5_distribution_sums defaultCfg lgEx 3 colsEx catsEx [] dataEx scEx).2 _
      (InTree.refl _)⟩

/-- Claim C6: the best-candidate fold starts from the configured
`min_impurity_decrease` (default 1/20 = 0.05) with no feature selected, and
the four `isinstance` branches coincide with the specification's uniform
rule — iterate in list order, a candidate wins only with a strictly greater
scalar score, so an equal score keeps the earlier feature. -/
theorem claim6_selection_strict (lg : ℚ → ℚ) (cls : List ℕ) (cats nums : List String)
    (minImp : ℚ) (data : Dataset) (feats : List EligEntry) :
    selectBest lg cls cats nums minImp data feats
      = List.foldl (specStep lg cls cats nums data)
          (GainV.scalar minImp, Option.none) feats ∧
    (GainV.scalar minImp).score = minImp ∧
    defaultCfg.min_impurity_decrease = 1 / 20 ∧
    ∀ (b : GainV × Option EligEntry) (e : EligEntry),
      ¬ b.1.score < (informationGain lg cls cats nums data e).score →
      specStep lg cls cats nums data b e = b := by
  refine ⟨?_, rfl, rfl, ?_⟩
  · exact foldl_gainStep_eq_specStep lg cls cats nums data feats
      (GainV.scalar minImp, Option.none) (by simp)
  · intro b e hlt
    cases hI : informationGain lg cls cats nums data e with
    | scalar c => rw [hI] at hlt; simp [specStep, hI, hlt]
    | pair c t => rw [hI] at hlt; simp [specStep, hI, hlt]
    | na => simp [specStep, hI]

/-- Claim C6 witness: the fold identity on the concrete example, and a
concrete equal-score tie in which the earlier best is kept. -/
theorem claim6_witness :
    (selectBest lgEx [0, 1] catsEx [] (1 / 20) dataEx [EligEntry.name "a"]
      = List.foldl (specStep lgEx [0, 1] catsEx [] dataEx)
          (GainV.scalar (1 / 20), Option.none) [EligEntry.name "a"]) ∧
    (¬ ((GainV.scalar (1 / 2), Option.none) : GainV × Option EligEntry).1.score
        < (informationGain lgEx [0, 1] catsEx [] dataEx (EligEntry.name "a")).score) ∧
    specStep lgEx [0, 1] catsEx [] dataEx (GainV.scalar (1 / 2), Option.none)
        (EligEntry.name "a")
      = (GainV.scalar (1 / 2), Option.none) := by
  have hsc : ¬ ((GainV.scalar (1 / 2), Option.none) : GainV × Option EligEntry).1.score
      < (informationGain lgEx [0, 1] catsEx [] dataEx (EligEntry.name "a")).score := by
    rw [infoGainEx]
    simp [GainV.score]
  exact ⟨(claim6_selection_strict lgEx [0, 1] catsEx [] (1 / 20) dataEx
      [EligEntry.name "a"]).1, hsc,
    (claim6_selection_strict lgEx [0, 1] catsEx [] (1 / 20) dataEx
      [EligEntry.name "a"]).2.2.2 _ _ hsc⟩

/-- Claim C7: along any root-to-leaf path of a fitted tree a categorical
feature is chosen at most once — every strict descendant of a node that
split on categorical `f` has a different split feature — and choosing a
categorical feature removes its name from the eligible list handed to the
children (given its multiplicity bound, maintained by the build invariant).
(Hypotheses: the column names and the registry's dependent names are
duplicate-free — with duplicates Python's `list.remove` raises in `fit`
before any tree exists.) -/
theorem claim7_categorical_once (cfg : Cfg) (lg : ℚ → ℚ) (fuel : ℕ)
    (cols cats nums : List String) (data : Dataset) (sc : SC)
    (h1 : (scDeps sc).Nodup) (h2 : cols.Nodup) :
    (∀ n m f, InTree n (fit cfg lg fuel cols cats nums data sc).tree →
      n.split_feature = Option.some (EligEntry.name f) → f ∈ cats →
      (∃ c ∈ n.childs, InTree m c) →
      m.split_feature ≠ Option.some (EligEntry.name f)) ∧
    (∀ (f : String) (afn : List EligEntry) (sc' : SC), f ∈ cats →
      countName f afn ≤ 1 → f ∉ scDeps sc' →
      EligEntry.name f ∉ (updateAvailable cats (EligEntry.name f) afn sc').1) := by
  constructor
  · simp only [fit]
    intro n m f hn hsplit hcat hdesc
    exact generateNode_cat_once cfg ⟨lg, sortedClasses data, cats, nums⟩ fuel data
      EdgeVal.root (initialAvailable cols sc) sc (initialAvailable_inv cols sc h1 h2)
      n m f hn hsplit hcat hdesc
  · intro f afn sc' hcat hcount hdep
    exact updateAvailable_removes cats f afn sc' hcat hcount hdep

/-- Claim C7 witness: in the concrete fitted tree the root splits on the
categorical feature `"a"`, and its first child does not. -/
theorem claim7_witness :
    (scDeps scEx).Nodup ∧ colsEx.Nodup ∧
    InTree (fit defaultCfg lgEx 3 colsEx catsEx [] dataEx scEx).tree
      (fit defaultCfg lgEx 3 colsEx catsEx [] dataEx scEx).tree ∧
    (fit defaultCfg lgEx 3 colsEx catsEx [] dataEx scEx).tree.split_feature
      = Option.some (EligEntry.name "a") ∧
    "a" ∈ catsEx ∧
    (∃ c ∈ (fit defaultCfg lgEx 3 colsEx catsEx [] dataEx scEx).tree.childs,
      InTree nodeXEx c) ∧
    nodeXEx.split_feature ≠ Option.some (EligEntry.name "a") := by
  have htree : (fit defaultCfg lgEx 3 colsEx catsEx [] dataEx scEx).tree = rootEx := by
    have := fitEx_parts.1
    simpa [fitEx] using this
  have hnd1 : (scDeps scEx).Nodup := by simp [scDeps, scEx, DepVal.deps]
  have hnd2 : colsEx.Nodup := by simp [colsEx]
  have hsplit : (fit defaultCfg lgEx 3 colsEx catsEx [] dataEx scEx).tree.split_feature
      = Option.some (EligEntry.name "a") := by
    rw [htree]; rfl
  have hdesc : ∃ c ∈ (fit defaultCfg lgEx 3 colsEx catsEx [] dataEx scEx).tree.childs,
      InTree nodeXEx c := by
    rw [htree]
    exact ⟨nodeXEx, by simp [rootEx, Node.childs], InTree.refl _⟩
  exact ⟨hnd1, hnd2, InTree.refl _, hsplit, by simp [catsEx],
    hdesc,
    (claim7_categorical_once defaultCfg lgEx 3 colsEx catsEx [] dataEx scEx hnd1 hnd2).1
      _ nodeXEx "a" (InTree.refl _) hsplit (by simp [catsEx]) hdesc⟩

/-- Claim C8: when some feature clears the gain threshold but the subset has
fewer rows than `min_samples_split` (default 2), the node keeps the winning
feature as `split_feature` yet gets no children — no partitioning or
recursion happens. -/
theorem claim8_split_set_no_children (cfg : Cfg) (G : Globals) (fuel : ℕ)
    (data : Dataset) (fv : EdgeVal) (afn : List EligEntry) (sc : SC) (e : EligEntry)
    (ho : (selectBest G.lg G.class_names G.cats G.nums cfg.min_impurity_decrease data afn).2
        = Option.some e)
    (hms : data.length < cfg.min_samples_split) :
    ((generateNode cfg G fuel data fv afn sc).1).split_feature = Option.some e ∧
    ((generateNode cfg G fuel data fv afn sc).1).childs = [] ∧
    defaultCfg.min_samples_split = 2 := by
  cases fuel with
  | zero =>
    have h := nodeStep_small cfg G Option.none data fv afn sc e ho hms
    exact ⟨by simpa [generateNode] using h.1, by simpa [generateNode] using h.2, rfl⟩
  | succ fuel =>
    have h := nodeStep_small cfg G (Option.some (generateNode cfg G fuel)) data fv afn sc e ho hms
    exact ⟨by simpa [generateNode] using h.1, by simpa [generateNode] using h.2, rfl⟩

def cfg3 : Cfg := ⟨3, 1, 1 / 20⟩

/-- Claim C8 witness: with `min_samples_split = 3` the two-row set still
lets `"a"` win (gain 1/2 > 1/20), and the resulting node carries
`split_feature = "a"` with zero children. -/
theorem claim8_witness :
    ((selectBest gEx.lg gEx.class_names gEx.cats gEx.nums cfg3.min_impurity_decrease dataEx
        [EligEntry.name "a"]).2 = Option.some (EligEntry.name "a")) ∧
    dataEx.length < cfg3.min_samples_split ∧
    ((generateNode cfg3 gEx 3 dataEx EdgeVal.root [EligEntry.name "a"] []).1).split_feature
      = Option.some (EligEntry.name "a") ∧
    ((generateNode cfg3 gEx 3 dataEx EdgeVal.root [EligEntry.name "a"] []).1).childs = [] := by
  have ho : (selectBest gEx.lg gEx.class_names gEx.cats gEx.nums cfg3.min_impurity_decrease
      dataEx [EligEntry.name "a"]).2 = Option.some (EligEntry.name "a") := by
    rw [gEx_lg, gEx_cls, gEx_cats, gEx_nums,
      show cfg3.min_impurity_decrease = 1 / 20 from rfl, selectBestEx]
  have hms : dataEx.length < cfg3.min_samples_split := by
    rw [dataEx_length]
    norm_num [cfg3]
  have h := claim8_split_set_no_children cfg3 gEx 3 dataEx EdgeVal.root [EligEntry.name "a"]
    [] (EligEntry.name "a") ho hms
  exact ⟨ho, hms, h.1, h.2.1⟩

/-- Claim C9: the entropy functions are total with explicit zero guards: an
empty subset yields entropy 0 in both functions, no division by a zero
subset size is performed there, and both functions query the logarithm only
at strictly positive arguments — replacing `lg` by any function agreeing
with it on positive rationals leaves every entropy unchanged. -/
theorem claim9_entropy_guards (lg lg' : ℚ → ℚ) (xs : List Row) (f : String) (t : ℕ)
    (h : ∀ q : ℚ, 0 < q → lg q = lg' q) :
    categoricalFeatureEntropy lg [] f = 0 ∧
    numericalFeatureEntropy lg [] f t = 0 ∧
    categoricalFeatureEntropy lg xs f = categoricalFeatureEntropy lg' xs f ∧
    numericalFeatureEntropy lg xs f t = numericalFeatureEntropy lg' xs f t := by
  refine ⟨?_, ?_, ?_, ?_⟩
  · simp [categoricalFeatureEntropy]
  · simp [numericalFeatureEntropy]
  · exact categoricalFeatureEntropy_congr lg lg' xs f h
  · exact numericalFeatureEntropy_congr lg lg' xs f t h

/-- Claim C9 witness: the guard statement instantiated with a concrete log
stand-in and the concrete rows. -/
theorem claim9_witness :
    (∀ q : ℚ, 0 < q → lgEx q = lgEx q) ∧
    (categoricalFeatureEntropy lgEx [] "a" = 0 ∧
     numericalFeatureEntropy lgEx [] "a" 1 = 0 ∧
     categoricalFeatureEntropy lgEx (dataEx.map Prod.fst) "a"
       = categoricalFeatureEntropy lgEx (dataEx.map Prod.fst) "a" ∧
     numericalFeatureEntropy lgEx (dataEx.map Prod.fst) "a" 1
       = numericalFeatureEntropy lgEx (dataEx.map Prod.fst) "a" 1) :=
  ⟨fun _ _ => rfl,
    claim9_entropy_guards lgEx lgEx (dataEx.map Prod.fst) "a" 1 (fun _ _ => rfl)⟩

/-- Claim C10: with a non-negative `min_impurity_decrease`, `log2 1 = 0` and
a non-empty training set, every node of the fitted tree owns at least one
row: a threshold whose `< t` or `>= t` branch would be empty always has
class-conditioned gain exactly 0 and so can never win strictly against the
non-negative starting bar, and categorical branches are only created for
observed values, so no recursive call ever receives an empty subset. -/
theorem claim10_samples_positive (cfg : Cfg) (lg : ℚ → ℚ) (fuel : ℕ)
    (cols cats nums : List String) (data : Dataset) (sc : SC)
    (h0 : 0 ≤ cfg.min_impurity_decrease) (h1 : lg 1 = 0) (h2 : data ≠ []) :
    (∀ (cls : List ℕ) (d : Dataset) (f : String) (t : ℕ), d ≠ [] →
      (d.filter (fun p => decide ((p.1 f).toNum < (t : ℚ))) = [] ∨
       d.filter (fun p => decide ((t : ℚ) ≤ (p.1 f).toNum)) = []) →
      numGainAt lg cls d f t = 0) ∧
    ∀ n, InTree n (fit cfg lg fuel cols cats nums data sc).tree → 1 ≤ n.samples := by
  constructor
  · intro cls d f t hd hcase
    exact numGainAt_empty_branch lg cls d f t hd h1 hcase
  · simp only [fit]
    intro n hn
    exact generateNode_samples_pos cfg ⟨lg, sortedClasses data, cats, nums⟩ h0 h1 fuel data
      EdgeVal.root (initialAvailable cols sc) sc h2 n hn

/-- Claim C10 witness: the hypotheses hold for the default configuration and
the concrete example, and the root of its fitted tree has a positive sample
count. -/
theorem claim10_witness :
    0 ≤ defaultCfg.min_impurity_decrease ∧ lgEx 1 = 0 ∧ dataEx ≠ [] ∧
    1 ≤ (fit defaultCfg lgEx 3 colsEx catsEx [] dataEx scEx).tree.samples := by
  have h0 : 0 ≤ defaultCfg.min_impurity_decrease := by norm_num [defaultCfg]
  have h1 : lgEx 1 = 0 := by norm_num [lgEx]
  have h2 : dataEx ≠ [] := by simp [dataEx]
  exact ⟨h0, h1, h2,
    (claim10_samples_positive defaultCfg lgEx 3 colsEx catsEx [] dataEx scEx h0 h1 h2).2 _
      (InTree.refl _)⟩
